import Mathlib

set_option maxRecDepth 100000
set_option maxHeartbeats 1000000

/-!
# Verification of the Xbox Cloud Gaming installer's document-patching core

This file gives a shallow embedding of the byte- and character-level
operations of `xbox-cloud-gaming-installer.py` and proves or refutes the
frozen claims about them.

Conventions:
* Python `bytes` values are modelled as `List Nat` (one `Nat` per byte).
* Python `str` text documents are modelled as `List Char`.
* Regex scans of the source are modelled by specialised scanners that
  reproduce the exact leftmost / non-overlapping semantics of the patterns
  used in the source (`re.finditer`, `re.search`, `re.sub`, `bytes.replace`).
* File-system effects are modelled by explicit state records together with
  an injected failure point, so that the backup / restore behaviour of each
  mutating operation becomes a pure function.
-/

/-- UTF-8 / ASCII bytes of a string literal (all literals in the source are
ASCII, where UTF-8 coincides with the code points). -/
def ascii (s : String) : List Nat :=
  s.toList.map Char.toNat

/-- `b"\x01AppName\x00Microsoft Edge\x00"`: the first alternative of the
`re.compile(rb"\x01AppName\x00(Microsoft Edge|Edge)\x00")` pattern
(source lines 131 and 170). -/
def pM : List Nat := [1] ++ ascii "AppName" ++ [0] ++ ascii "Microsoft Edge" ++ [0]

/-- `b"\x01AppName\x00Edge\x00"`: the second alternative of the AppName
pattern. -/
def pE : List Nat := [1] ++ ascii "AppName" ++ [0] ++ ascii "Edge" ++ [0]

/-- `b"\x02appid\x00"`: the fixed head of the
`re.compile(rb"\x02appid\x00(.{4})")` pattern (source line 133). -/
def appidHeader : List Nat := [2] ++ ascii "appid" ++ [0]

/-- `b"\x01LaunchOptions\x00"`: the fixed head of the
`re.compile(rb"\x01LaunchOptions\x00([^\x00]*)\x00")` pattern
(source line 188). -/
def launchHeader : List Nat := [1] ++ ascii "LaunchOptions" ++ [0]

/-- `b"\x00shortcuts\x00"`: the section marker tested by
`b"\x00shortcuts\x00" in content` (source line 319). -/
def shortcutsMarker : List Nat := [0] ++ ascii "shortcuts" ++ [0]

/-- The module constant `LAUNCH_OPTIONS` (source line 34), as bytes. -/
def launchOptionsBytes : List Nat :=
  ascii "--window-size=1024,640 --force-device-scale-factor=1.25 --device-scale-factor=1.25 --kiosk \"https://www.xbox.com/play\""

/-- `b'--kiosk "https://www.xbox.com/play"'`: the duplicate guard substring
tested on source line 195. -/
def kioskBytes : List Nat := ascii "--kiosk \"https://www.xbox.com/play\""

/-- Python `needle in hay` on `bytes`: contiguous-substring test. -/
def containsSub (needle : List Nat) : List Nat → Bool
  | [] => needle.isEmpty
  | hay@(_ :: t) => needle.isPrefixOf hay || containsSub needle t

/-- Fuelled worker for `replaceAll`; the fuel only serves structural
recursion and is irrelevant as soon as it bounds the list length
(`replaceAllGo_congr`). -/
def replaceAllGo (p t : List Nat) : Nat → List Nat → List Nat
  | 0, s => s
  | fuel + 1, s =>
    match s with
    | [] => []
    | c :: s' =>
      if p ≠ [] ∧ p.isPrefixOf s = true then
        t ++ replaceAllGo p t fuel (s.drop p.length)
      else
        c :: replaceAllGo p t fuel s'

/-- Python `bytes.replace(p, t)` for a non-empty pattern `p`: replace every
occurrence, scanning left to right without overlap.  (The source only ever
calls `replace` with non-empty patterns; for `p = []` this returns `s`
unchanged.) -/
def replaceAll (s p t : List Nat) : List Nat :=
  replaceAllGo p t s.length s

theorem replaceAllGo_congr (p t : List Nat) :
    ∀ f₁ f₂ s, s.length ≤ f₁ → s.length ≤ f₂ →
      replaceAllGo p t f₁ s = replaceAllGo p t f₂ s := by
  intro f₁
  induction f₁ with
  | zero =>
    intro f₂ s h1 _
    have : s = [] := List.eq_nil_of_length_eq_zero (Nat.le_zero.mp h1)
    subst this
    cases f₂ <;> rfl
  | succ f ih =>
    intro f₂ s h1 h2
    cases f₂ with
    | zero =>
      have : s = [] := List.eq_nil_of_length_eq_zero (Nat.le_zero.mp h2)
      subst this
      rfl
    | succ f' =>
      cases s with
      | nil => rfl
      | cons c s' =>
        simp only [replaceAllGo]
        by_cases h : p ≠ [] ∧ p.isPrefixOf (c :: s') = true
        · simp only [if_pos h]
          have hp : 0 < p.length := List.length_pos.mpr h.1
          have hlen : ((c :: s').drop p.length).length ≤ f := by
            simp only [List.length_drop, List.length_cons]
            simp only [List.length_cons] at h1
            omega
          have hlen' : ((c :: s').drop p.length).length ≤ f' := by
            simp only [List.length_drop, List.length_cons]
            simp only [List.length_cons] at h2
            omega
          rw [ih _ _ hlen hlen']
        · simp only [if_neg h]
          have hlen : s'.length ≤ f := by
            simp only [List.length_cons] at h1; omega
          have hlen' : s'.length ≤ f' := by
            simp only [List.length_cons] at h2; omega
          rw [ih _ _ hlen hlen']

@[simp] theorem replaceAll_nil (p t : List Nat) : replaceAll [] p t = [] := rfl

theorem replaceAll_cons (c : Nat) (s' p t : List Nat) :
    replaceAll (c :: s') p t =
      if p ≠ [] ∧ p.isPrefixOf (c :: s') = true then
        t ++ replaceAll ((c :: s').drop p.length) p t
      else
        c :: replaceAll s' p t := by
  show replaceAllGo p t (c :: s').length (c :: s') = _
  simp only [List.length_cons, replaceAllGo]
  by_cases h : p ≠ [] ∧ p.isPrefixOf (c :: s') = true
  · simp only [if_pos h]
    unfold replaceAll
    rw [replaceAllGo_congr p t s'.length ((c :: s').drop p.length).length]
    · simp only [List.length_drop, List.length_cons]
      have hp : 0 < p.length := List.length_pos.mpr h.1
      omega
    · exact Nat.le_refl _
  · simp only [if_neg h]
    unfold replaceAll
    rfl

/-- Python `content.rfind(b"\x08")` (source line 334), as the index of the
last occurrence (`none` for Python's `-1`). -/
def rfindByte (c : List Nat) (b : Nat) : Option Nat :=
  match c with
  | [] => none
  | x :: t =>
    match rfindByte t b with
    | some i => some (i + 1)
    | none => if x == b then some 0 else none

/-- `app_id.to_bytes(4, byteorder="little")` (source line 286), for
`app_id < 2^32`. -/
def le4 (n : Nat) : List Nat :=
  [n % 256, n / 256 % 256, n / 65536 % 256, n / 16777216 % 256]

/-- `int.from_bytes(app_id_bytes, byteorder="little")` (source line 147). -/
def leVal (bs : List Nat) : Nat :=
  bs.foldr (fun b acc => b + 256 * acc) 0

example : ascii "AppName" = [65, 112, 112, 78, 97, 109, 101] := by decide
example : pE = [1, 65, 112, 112, 78, 97, 109, 101, 0, 69, 100, 103, 101, 0] := by decide
example : pM.length = 24 ∧ pE.length = 14 ∧ appidHeader.length = 7 := by decide
example : replaceAll [5, 7, 7, 5] [7] [9, 9] = [5, 9, 9, 9, 9, 5] := by decide
example : rfindByte [8, 3, 8, 4] 8 = some 2 := by decide
example : rfindByte [3, 4] 8 = none := by decide
example : leVal (le4 305419896) = 305419896 := by decide
example : containsSub [3, 4] [1, 3, 4, 5] = true := by decide
example : containsSub [3, 6] [1, 3, 4, 5] = false := by decide

/-! ## Binary shortcut-store scanners (`find_edge_app_id`, source lines 123-153) -/

/-- Leftmost match of `rb"\x02appid\x00(.{4})"` in a segment
(`app_id_pattern.search(segment)`, source line 144).  `.` in a bytes regex
matches any byte except `\n` (10), and the four captured bytes must fit in
the segment. -/
def appidSearchLeft : List Nat → Option (List Nat)
  | [] => none
  | s@(_ :: t) =>
    if appidHeader.isPrefixOf s then
      match s.drop 7 with
      | b0 :: b1 :: b2 :: b3 :: _ =>
        if b0 != 10 && b1 != 10 && b2 != 10 && b3 != 10 then
          some [b0, b1, b2, b3]
        else appidSearchLeft t
      | _ => appidSearchLeft t
    else appidSearchLeft t

/-- The "nearest preceding appid field" reading of the claim wording: the
rightmost (latest) match of the appid pattern in the segment.  This is what
claim C6 asserts and is *not* what `re.search` does. -/
def appidSearchRight : List Nat → Option (List Nat)
  | [] => none
  | s@(_ :: t) =>
    match appidSearchRight t with
    | some r => some r
    | none =>
      if appidHeader.isPrefixOf s then
        match s.drop 7 with
        | b0 :: b1 :: b2 :: b3 :: _ =>
          if b0 != 10 && b1 != 10 && b2 != 10 && b3 != 10 then
            some [b0, b1, b2, b3]
          else none
        | _ => none
      else none

/-- At the head of `s`, match `rb"\x01AppName\x00(Microsoft Edge|Edge)\x00"`
and return the match length (the regex tries the `Microsoft Edge`
alternative first). -/
def appNameMatchLen (s : List Nat) : Option Nat :=
  if pM.isPrefixOf s then some 24 else if pE.isPrefixOf s then some 14 else none

theorem appNameMatchLen_pos {s : List Nat} {len : Nat}
    (h : appNameMatchLen s = some len) : 1 ≤ len := by
  unfold appNameMatchLen at h
  split at h
  · injection h with h2; omega
  · split at h
    · injection h with h2; omega
    · cases h

/-- `app_id_pattern.search(content[max(0, start - 200) : start])` followed by
`int.from_bytes(..., "little")` (source lines 141-147): the appid value
resolved from the backward window of an AppName match at `pos`. -/
def windowAppid (c : List Nat) (pos : Nat) : Option Nat :=
  match appidSearchLeft ((c.take pos).drop (pos - 200)) with
  | some bs => some (leVal bs)
  | none => none

/-- Fuelled worker for the `find_edge_app_id` loop: iterate the
non-overlapping AppName matches in order; for each, search the backward
window `content[max(0, start - 200) : start]` for the appid pattern and
return the little-endian value of the first hit; otherwise continue behind
the match. -/
def findEdgeGo (c : List Nat) : Nat → Nat → List Nat → Option Nat
  | 0, _, _ => none
  | _ + 1, _, [] => none
  | fuel + 1, pos, x :: t =>
    match appNameMatchLen (x :: t) with
    | some len =>
      match windowAppid c pos with
      | some v => some v
      | none => findEdgeGo c fuel (pos + len) ((x :: t).drop len)
    | none => findEdgeGo c fuel (pos + 1) t

/-- `find_edge_app_id` (source lines 123-153) on in-memory content: scan all
AppName matches and return the first backward-window appid value, `none`
when the loop falls through. -/
def findEdgeAppId (c : List Nat) : Option Nat :=
  findEdgeGo c c.length 0 c

theorem findEdgeGo_succ_cons (c : List Nat) (f pos : Nat) (x : Nat) (t : List Nat) :
    findEdgeGo c (f + 1) pos (x :: t) =
      match appNameMatchLen (x :: t) with
      | some len =>
        match windowAppid c pos with
        | some v => some v
        | none => findEdgeGo c f (pos + len) ((x :: t).drop len)
      | none => findEdgeGo c f (pos + 1) t := rfl

theorem findEdgeGo_congr (c : List Nat) :
    ∀ f₁ f₂ pos s, s.length ≤ f₁ → s.length ≤ f₂ →
      findEdgeGo c f₁ pos s = findEdgeGo c f₂ pos s := by
  intro f₁
  induction f₁ with
  | zero =>
    intro f₂ pos s h1 _
    have : s = [] := List.eq_nil_of_length_eq_zero (Nat.le_zero.mp h1)
    subst this
    cases f₂ <;> rfl
  | succ f ih =>
    intro f₂ pos s h1 h2
    cases f₂ with
    | zero =>
      have : s = [] := List.eq_nil_of_length_eq_zero (Nat.le_zero.mp h2)
      subst this
      rfl
    | succ f' =>
      cases s with
      | nil => rfl
      | cons x t =>
        simp only [List.length_cons] at h1 h2
        rw [findEdgeGo_succ_cons, findEdgeGo_succ_cons]
        cases hm : appNameMatchLen (x :: t) with
        | none =>
          exact ih f' (pos + 1) t (by omega) (by omega)
        | some len =>
          cases windowAppid c pos with
          | some v => rfl
          | none =>
            have hlen : 1 ≤ len := appNameMatchLen_pos hm
            refine ih f' (pos + len) ((x :: t).drop len) ?_ ?_ <;>
              simp only [List.length_drop, List.length_cons] <;> omega

/-- Length-as-fuel entry point used by the rewriting equations. -/
def findEdgeFrom (c : List Nat) (pos : Nat) (s : List Nat) : Option Nat :=
  findEdgeGo c s.length pos s

theorem findEdgeAppId_eq_from (c : List Nat) :
    findEdgeAppId c = findEdgeFrom c 0 c := rfl

@[simp] theorem findEdgeFrom_nil (c : List Nat) (pos : Nat) :
    findEdgeFrom c pos [] = none := rfl

theorem findEdgeFrom_cons (c : List Nat) (pos : Nat) (x : Nat) (t : List Nat) :
    findEdgeFrom c pos (x :: t) =
      match appNameMatchLen (x :: t) with
      | some len =>
        match windowAppid c pos with
        | some v => some v
        | none => findEdgeFrom c (pos + len) ((x :: t).drop len)
      | none => findEdgeFrom c (pos + 1) t := by
  show findEdgeGo c (t.length + 1) pos (x :: t) = _
  rw [findEdgeGo_succ_cons]
  cases hm : appNameMatchLen (x :: t) with
  | none =>
    exact findEdgeGo_congr c t.length t.length (pos + 1) t (Nat.le_refl _) (Nat.le_refl _)
  | some len =>
    cases windowAppid c pos with
    | some v => rfl
    | none =>
      have hlen : 1 ≤ len := appNameMatchLen_pos hm
      exact findEdgeGo_congr c t.length ((x :: t).drop len).length (pos + len)
        ((x :: t).drop len)
        (by simp only [List.length_drop, List.length_cons]; omega)
        (Nat.le_refl _)

/-! ## Entry builder and store insertion (`add_shortcut_to_steam`, source lines 219-377) -/

/-- The `new_entry` byte string assembled on source lines 281-313, with the
Python local values (`next_index`, `app_id`, `edge_name`, `edge_exe`,
`os.path.dirname(edge_exe)`, `edge_launch_args`, the inline
`com.microsoft.Edge` literal) as parameters.  Every byte below mirrors one
`b"..."` literal of the source, including the four extra `\x00` bytes after
the appid value and the extra `\x00` after `IsHidden`. -/
def buildEntry (idx : List Nat) (appid : Nat)
    (name exe sdir lopts extId : List Nat) : List Nat :=
  [0] ++ idx ++ [0]
  ++ [2] ++ ascii "appid" ++ [0] ++ le4 appid ++ [0, 0, 0, 0]
  ++ [1] ++ ascii "AppName" ++ [0] ++ name ++ [0]
  ++ [1] ++ ascii "Exe" ++ [0, 34] ++ exe ++ [34, 0]
  ++ [1] ++ ascii "StartDir" ++ [0, 34] ++ sdir ++ [34, 0]
  ++ [1] ++ ascii "icon" ++ [0, 0]
  ++ [1] ++ ascii "ShortcutPath" ++ [0, 0]
  ++ [1] ++ ascii "LaunchOptions" ++ [0] ++ lopts ++ [0]
  ++ [2] ++ ascii "IsHidden" ++ [0, 0, 0, 0, 0, 0]
  ++ [2] ++ ascii "AllowDesktopConfig" ++ [0, 1, 0, 0, 0]
  ++ [2] ++ ascii "AllowOverlay" ++ [0, 1, 0, 0, 0]
  ++ [2] ++ ascii "OpenVR" ++ [0, 0, 0, 0, 0]
  ++ [2] ++ ascii "Devkit" ++ [0, 0, 0, 0, 0]
  ++ [1] ++ ascii "DevkitGameID" ++ [0, 0]
  ++ [1] ++ ascii "DevkitOverrideAppID" ++ [0, 0]
  ++ [2] ++ ascii "LastPlayTime" ++ [0, 0, 0, 0, 0]
  ++ [1] ++ ascii "FlatpakAppID" ++ [0] ++ extId ++ [0]
  ++ [0] ++ ascii "tags" ++ [0]
  ++ [8, 8]

/-- `buildEntry` instantiated with the concrete values used by
`add_shortcut_to_steam` (source lines 253-255 and 310). -/
def edgeEntry (idx : List Nat) (appid : Nat) : List Nat :=
  buildEntry idx appid (ascii "Microsoft Edge") (ascii "/usr/bin/flatpak")
    (ascii "/usr/bin") (ascii "run com.microsoft.Edge") (ascii "com.microsoft.Edge")

/-- Object-start marker of the binary format: `\x00<name>\x00`. -/
def objStart (nm : List Nat) : List Nat := [0] ++ nm ++ [0]

/-- String field of the binary format: `\x01<name>\x00<value>\x00`. -/
def strField (nm v : List Nat) : List Nat := [1] ++ nm ++ [0] ++ v ++ [0]

/-- Int32 field of the binary format: `\x02<name>\x00` + exactly 4
little-endian value bytes. -/
def intField (nm : List Nat) (v : Nat) : List Nat := [2] ++ nm ++ [0] ++ le4 v

/-- The entry layout exactly as claim C5 words it: an int32 `appid` field
whose value takes exactly 4 little-endian bytes, and four int32 flag
fields. -/
def claimedEntryC5 (idx : List Nat) (appid : Nat)
    (name exe sdir lopts extId : List Nat) : List Nat :=
  objStart idx
  ++ intField (ascii "appid") appid
  ++ strField (ascii "AppName") name
  ++ strField (ascii "Exe") ([34] ++ exe ++ [34])
  ++ strField (ascii "StartDir") ([34] ++ sdir ++ [34])
  ++ strField (ascii "icon") []
  ++ strField (ascii "ShortcutPath") []
  ++ strField (ascii "LaunchOptions") lopts
  ++ intField (ascii "IsHidden") 0
  ++ intField (ascii "AllowDesktopConfig") 1
  ++ intField (ascii "AllowOverlay") 1
  ++ intField (ascii "OpenVR") 0
  ++ intField (ascii "Devkit") 0
  ++ strField (ascii "DevkitGameID") []
  ++ strField (ascii "DevkitOverrideAppID") []
  ++ intField (ascii "LastPlayTime") 0
  ++ strField (ascii "FlatpakAppID") extId
  ++ objStart (ascii "tags")
  ++ [8, 8]

/-- The amended C5 layout: as the claim words it, except that four extra
zero bytes follow the 4 little-endian appid value bytes, and one extra zero
byte follows the 4 zero value bytes of `IsHidden`. -/
def amendedEntryC5 (idx : List Nat) (appid : Nat)
    (name exe sdir lopts extId : List Nat) : List Nat :=
  objStart idx
  ++ (intField (ascii "appid") appid ++ [0, 0, 0, 0])
  ++ strField (ascii "AppName") name
  ++ strField (ascii "Exe") ([34] ++ exe ++ [34])
  ++ strField (ascii "StartDir") ([34] ++ sdir ++ [34])
  ++ strField (ascii "icon") []
  ++ strField (ascii "ShortcutPath") []
  ++ strField (ascii "LaunchOptions") lopts
  ++ (intField (ascii "IsHidden") 0 ++ [0])
  ++ intField (ascii "AllowDesktopConfig") 1
  ++ intField (ascii "AllowOverlay") 1
  ++ intField (ascii "OpenVR") 0
  ++ intField (ascii "Devkit") 0
  ++ strField (ascii "DevkitGameID") []
  ++ strField (ascii "DevkitOverrideAppID") []
  ++ intField (ascii "LastPlayTime") 0
  ++ strField (ascii "FlatpakAppID") extId
  ++ objStart (ascii "tags")
  ++ [8, 8]

/-- `insertEntry` — the insertion logic of `add_shortcut_to_steam`
(source lines 319-352): with a `\x00shortcuts\x00` marker present, splice
before a trailing `\x08\x08`, else before the last `\x08` when
`content.rfind(b"\x08") > 0`, else append; with no marker, synthesize
`marker + entry + \x08\x08`. -/
def insertEntry (content entry : List Nat) : List Nat :=
  if containsSub shortcutsMarker content then
    if List.isSuffixOf [8, 8] content then
      content.take (content.length - 2) ++ entry ++ [8, 8]
    else
      match rfindByte content 8 with
      | some posn =>
        if 0 < posn then content.take posn ++ entry ++ content.drop posn
        else content ++ entry
      | none => content ++ entry
  else shortcutsMarker ++ entry ++ [8, 8]

example : (edgeEntry [48] 5).length = 324 := by decide
example : insertEntry [] [7] = shortcutsMarker ++ [7] ++ [8, 8] := by decide
example :
    insertEntry (shortcutsMarker ++ [8, 8]) [7] = shortcutsMarker ++ [7] ++ [8, 8] := by
  decide
example :
    insertEntry (shortcutsMarker ++ [8, 9]) [7] = shortcutsMarker ++ [7] ++ [8, 9] := by
  decide
example : insertEntry ([8] ++ shortcutsMarker) [7] = [8] ++ shortcutsMarker ++ [7] := by
  decide

/-! ## Match enumeration (`app_name_pattern.finditer`, source line 135) -/

/-- Fuelled enumeration of the non-overlapping AppName matches as
`(start, length)` pairs, in document order. -/
def matchesGo : Nat → Nat → List Nat → List (Nat × Nat)
  | 0, _, _ => []
  | _ + 1, _, [] => []
  | fuel + 1, pos, x :: t =>
    match appNameMatchLen (x :: t) with
    | some len => (pos, len) :: matchesGo fuel (pos + len) ((x :: t).drop len)
    | none => matchesGo fuel (pos + 1) t

/-- `list(app_name_pattern.finditer(content))` as `(start, length)` pairs. -/
def appNameMatches (c : List Nat) : List (Nat × Nat) :=
  matchesGo c.length 0 c

theorem matchesGo_succ_cons (f pos : Nat) (x : Nat) (t : List Nat) :
    matchesGo (f + 1) pos (x :: t) =
      match appNameMatchLen (x :: t) with
      | some len => (pos, len) :: matchesGo f (pos + len) ((x :: t).drop len)
      | none => matchesGo f (pos + 1) t := rfl

theorem matchesGo_congr :
    ∀ f₁ f₂ pos s, s.length ≤ f₁ → s.length ≤ f₂ →
      matchesGo f₁ pos s = matchesGo f₂ pos s := by
  intro f₁
  induction f₁ with
  | zero =>
    intro f₂ pos s h1 _
    have : s = [] := List.eq_nil_of_length_eq_zero (Nat.le_zero.mp h1)
    subst this
    cases f₂ <;> rfl
  | succ f ih =>
    intro f₂ pos s h1 h2
    cases f₂ with
    | zero =>
      have : s = [] := List.eq_nil_of_length_eq_zero (Nat.le_zero.mp h2)
      subst this
      rfl
    | succ f' =>
      cases s with
      | nil => rfl
      | cons x t =>
        simp only [List.length_cons] at h1 h2
        rw [matchesGo_succ_cons, matchesGo_succ_cons]
        cases hm : appNameMatchLen (x :: t) with
        | none => exact ih f' (pos + 1) t (by omega) (by omega)
        | some len =>
          have hlen : 1 ≤ len := appNameMatchLen_pos hm
          have h3 := ih f' (pos + len) ((x :: t).drop len)
            (by simp only [List.length_drop, List.length_cons]; omega)
            (by simp only [List.length_drop, List.length_cons]; omega)
          exact congrArg (fun l => (pos, len) :: l) h3

/-- Length-as-fuel entry point for `matchesGo`. -/
def matchesFrom (pos : Nat) (s : List Nat) : List (Nat × Nat) :=
  matchesGo s.length pos s

theorem matchesFrom_cons (pos : Nat) (x : Nat) (t : List Nat) :
    matchesFrom pos (x :: t) =
      match appNameMatchLen (x :: t) with
      | some len => (pos, len) :: matchesFrom (pos + len) ((x :: t).drop len)
      | none => matchesFrom (pos + 1) t := by
  show matchesGo (t.length + 1) pos (x :: t) = _
  rw [matchesGo_succ_cons]
  cases hm : appNameMatchLen (x :: t) with
  | none => exact matchesGo_congr t.length t.length (pos + 1) t (Nat.le_refl _) (Nat.le_refl _)
  | some len =>
    have hlen : 1 ≤ len := appNameMatchLen_pos hm
    have h3 := matchesGo_congr t.length ((x :: t).drop len).length (pos + len)
      ((x :: t).drop len)
      (by simp only [List.length_drop, List.length_cons]; omega) (Nat.le_refl _)
    exact congrArg (fun l => (pos, len) :: l) h3

/-- The C6 claim wording, with "nearest preceding" meaning the rightmost
appid-pattern match inside the backward window. -/
def windowAppidNearest (c : List Nat) (pos : Nat) : Option Nat :=
  match appidSearchRight ((c.take pos).drop (pos - 200)) with
  | some bs => some (leVal bs)
  | none => none

/-- `locateEntryByName` as claim C6 words it (with "nearest preceding"):
over the match list, resolve each backward window by the *nearest* (latest)
appid field and return the first resolution. -/
def claimNearestLocate (c : List Nat) : Option Nat :=
  (appNameMatches c).findSome? (fun m => windowAppidNearest c m.1)

/-- The amended C6 description: the same composition, but each backward
window is resolved by its *leftmost* (earliest) appid-pattern match, the
four value bytes of which must avoid the byte `\n` = 10. -/
def specLocateC6 (c : List Nat) : Option Nat :=
  (appNameMatches c).findSome? (fun m => windowAppid c m.1)

theorem findEdgeGo_eq_findSome (c : List Nat) :
    ∀ fuel pos s, s.length ≤ fuel →
      findEdgeGo c fuel pos s =
        (matchesGo fuel pos s).findSome? (fun m => windowAppid c m.1) := by
  intro fuel
  induction fuel with
  | zero =>
    intro pos s h
    have : s = [] := List.eq_nil_of_length_eq_zero (Nat.le_zero.mp h)
    subst this
    rfl
  | succ f ih =>
    intro pos s h
    cases s with
    | nil => rfl
    | cons x t =>
      simp only [List.length_cons] at h
      rw [findEdgeGo_succ_cons, matchesGo_succ_cons]
      cases hm : appNameMatchLen (x :: t) with
      | none =>
        exact ih (pos + 1) t (by omega)
      | some len =>
        have hlen : 1 ≤ len := appNameMatchLen_pos hm
        simp only [List.findSome?]
        cases hw : windowAppid c pos with
        | some v => rfl
        | none =>
          exact ih (pos + len) ((x :: t).drop len)
            (by simp only [List.length_drop, List.length_cons]; omega)

/-! ## Claim C5: the built entry's layout -/

/-- C5 counterexample: at concrete arguments the entry built by
`add_shortcut_to_steam` differs from the byte sequence the claim describes —
the source emits four extra `\x00` bytes after the 4 little-endian appid
value bytes and one extra `\x00` after the 4 `IsHidden` value bytes. -/
theorem c5_counterexample :
    buildEntry [48] 1 (ascii "N") (ascii "E") (ascii "S") (ascii "L") (ascii "F") ≠
      claimedEntryC5 [48] 1 (ascii "N") (ascii "E") (ascii "S") (ascii "L") (ascii "F") := by
  decide

/-- C5 (amended): for every index string, appid, name, executable path,
start directory, launch options and external package id, `buildEntry`
produces exactly the fields in the claimed order, except that the int32
`appid` field carries four extra zero bytes after its 4 little-endian value
bytes and the `IsHidden` field carries one extra zero byte after its four
zero value bytes. -/
theorem c5_amended_buildEntry_layout (idx : List Nat) (appid : Nat)
    (name exe sdir lopts extId : List Nat) :
    buildEntry idx appid name exe sdir lopts extId =
      amendedEntryC5 idx appid name exe sdir lopts extId := by
  simp [buildEntry, amendedEntryC5, objStart, strField, intField, le4,
    List.append_assoc]

/-! ## Claim C6: `locateEntryByName` resolution order -/

/-- A store with two appid fields inside the 200-byte backward window of an
`Edge` AppName match: the earlier field holds value 1, the nearer (later)
field holds value 3. -/
def c6ex : List Nat :=
  appidHeader ++ [1, 0, 0, 0] ++ appidHeader ++ [3, 0, 0, 0] ++ pE

/-- C6 counterexample: `find_edge_app_id` returns the value of the
*leftmost* appid field of the backward window (1), not the value of the
*nearest preceding* appid field (3) that the claim describes. -/
theorem c6_counterexample :
    findEdgeAppId c6ex = some 1 ∧ claimNearestLocate c6ex = some 3 := by
  constructor
  · decide
  · decide

/-- C6 (amended): `locateEntryByName` scans the non-overlapping AppName
matches in order; for each match it searches the backward window
`content[max(0, start-200) : start]` for the *leftmost* (earliest)
`[int32-type, "appid", terminator, 4 non-newline bytes]` pattern and
returns the first match's little-endian value; it returns none when no
target name pattern is present. -/
theorem c6_amended_locate (c : List Nat) :
    findEdgeAppId c = specLocateC6 c ∧
      (appNameMatches c = [] → findEdgeAppId c = none) := by
  have h := findEdgeGo_eq_findSome c c.length 0 c (Nat.le_refl _)
  constructor
  · exact h
  · intro hnil
    rw [findEdgeAppId, h]
    show (appNameMatches c).findSome? (fun m => windowAppid c m.1) = none
    rw [hnil]
    rfl

/-- C6 witness: the amended theorem applied to a two-byte store with no
AppName pattern. -/
theorem c6_witness : appNameMatches [5, 6] = [] ∧ findEdgeAppId [5, 6] = none :=
  ⟨by decide, (c6_amended_locate [5, 6]).2 (by decide)⟩

/-! ## Claim C1: counterexample to the stated insertion placement -/

/-- A store that contains the `\x00shortcuts\x00` marker, does not end with
`\x08\x08`, and whose only `\x08` byte sits at offset 0. -/
def c1ex : List Nat := [8] ++ shortcutsMarker

/-- A store that contains the marker, ends with `\x08\x08`, and already
holds an `Edge`-named entry whose appid field (value 1) sits inside the
200-byte backward window of its AppName field. -/
def c1ex2 : List Nat :=
  shortcutsMarker ++ appidHeader ++ [1, 0, 0, 0] ++ pE ++ [8, 8]

/-- C1 counterexample, refuting each part of the claimed round-trip at
concrete inputs:
(i) on `c1ex` the reverse scan finds the last `\x08` at offset 0 and the
source then *appends* the entry (`last_bs_pos > 0` fails) instead of
inserting it before that end-marker as the claim states, which would give
`entry ++ c1ex`;
(ii) on `c1ex2` the scan after insertion resolves the *pre-existing*
entry's appid 1, not the inserted entry's appid 5, so `locateEntryByName`
does not find the new entry's appid;
(iii) inserting an entry with appid 10 into the bare marker store is not
found at all, because the appid value byte `\x0A` is a newline that the
regex dot refuses to match. -/
theorem c1_counterexample :
    (insertEntry c1ex (edgeEntry [48] 5) = c1ex ++ edgeEntry [48] 5 ∧
        insertEntry c1ex (edgeEntry [48] 5) ≠ edgeEntry [48] 5 ++ c1ex) ∧
      (findEdgeAppId (insertEntry c1ex2 (edgeEntry [48] 5)) = some 1 ∧ (1 : Nat) ≠ 5) ∧
      findEdgeAppId (insertEntry (shortcutsMarker ++ [8, 8]) (edgeEntry [48] 10)) =
        none := by
  refine ⟨⟨by decide, by decide⟩, ⟨by decide, by decide⟩, by decide⟩

/-! ## Claim C1: supporting lemmas for the amended round-trip -/

theorem rfindByte_cons (x : Nat) (t : List Nat) (b : Nat) :
    rfindByte (x :: t) b =
      match rfindByte t b with
      | some i => some (i + 1)
      | none => if x == b then some 0 else none := rfl

theorem rfindByte_lt {c : List Nat} {b i : Nat} (h : rfindByte c b = some i) :
    i < c.length := by
  induction c generalizing i with
  | nil => cases h
  | cons x t ih =>
    rw [rfindByte_cons] at h
    cases hr : rfindByte t b with
    | some j =>
      rw [hr] at h
      injection h with h2
      subst h2
      have := ih hr
      simp only [List.length_cons]
      omega
    | none =>
      rw [hr] at h
      by_cases hxb : (x == b) = true
      · rw [if_pos hxb] at h
        injection h with h2
        subst h2
        simp
      · rw [if_neg hxb] at h
        cases h

theorem isPrefixOf_refl_append (l t : List Nat) : l.isPrefixOf (l ++ t) = true := by
  induction l with
  | nil => simp
  | cons x xs ih => simp [List.isPrefixOf_cons₂, ih]

theorem pM_cons : pM = 1 :: pM.tail := by decide

theorem pE_cons : pE = 1 :: pE.tail := by decide

theorem appidHeader_cons : appidHeader = 2 :: appidHeader.tail := by decide

theorem isPrefixOf_cons_false {p : List Nat} {a x : Nat} {p' t : List Nat}
    (hp : p = a :: p') (hx : x ≠ a) : p.isPrefixOf (x :: t) = false := by
  subst hp
  simp only [List.isPrefixOf, Bool.and_eq_false_iff]
  left
  simp only [beq_eq_false_iff_ne, ne_eq]
  exact fun h => hx h.symm

theorem appNameMatchLen_none_of_head_ne_one {x : Nat} (hx : x ≠ 1) (t : List Nat) :
    appNameMatchLen (x :: t) = none := by
  unfold appNameMatchLen
  rw [isPrefixOf_cons_false pM_cons hx, isPrefixOf_cons_false pE_cons hx]
  simp

theorem appNameMatchLen_pM (X : List Nat) : appNameMatchLen (pM ++ X) = some 24 := by
  unfold appNameMatchLen
  rw [isPrefixOf_refl_append]
  simp

theorem findEdgeFrom_skip (r : List Nat) :
    ∀ xs rest pos, (∀ b ∈ xs, b ≠ 1) →
      findEdgeFrom r pos (xs ++ rest) = findEdgeFrom r (pos + xs.length) rest := by
  intro xs
  induction xs with
  | nil =>
    intro rest pos _
    simp
  | cons x xs ih =>
    intro rest pos hx
    have hx1 : x ≠ 1 := hx x (List.mem_cons_self x xs)
    have h1 : findEdgeFrom r pos (x :: (xs ++ rest)) = findEdgeFrom r (pos + 1) (xs ++ rest) := by
      rw [findEdgeFrom_cons, appNameMatchLen_none_of_head_ne_one hx1]
    rw [List.cons_append, h1, ih rest (pos + 1) (fun b hb => hx b (List.mem_cons_of_mem x hb))]
    congr 1
    simp only [List.length_cons]
    omega

theorem appidSearchLeft_cons (x : Nat) (t : List Nat) :
    appidSearchLeft (x :: t) =
      if appidHeader.isPrefixOf (x :: t) then
        match (x :: t).drop 7 with
        | b0 :: b1 :: b2 :: b3 :: _ =>
          if b0 != 10 && b1 != 10 && b2 != 10 && b3 != 10 then
            some [b0, b1, b2, b3]
          else appidSearchLeft t
        | _ => appidSearchLeft t
      else appidSearchLeft t := rfl

theorem appidSearchLeft_skip :
    ∀ xs rest, (∀ b ∈ xs, b ≠ 2) →
      appidSearchLeft (xs ++ rest) = appidSearchLeft rest := by
  intro xs
  induction xs with
  | nil => intro rest _; rfl
  | cons x xs ih =>
    intro rest hx
    have hx2 : x ≠ 2 := hx x (List.mem_cons_self x xs)
    rw [List.cons_append, appidSearchLeft_cons,
      isPrefixOf_cons_false appidHeader_cons hx2]
    simp only [Bool.false_eq_true, if_false]
    exact ih rest (fun b hb => hx b (List.mem_cons_of_mem x hb))

theorem appidSearchLeft_at_header (appid : Nat) (rest : List Nat)
    (hb10 : ∀ b ∈ le4 appid, b ≠ 10) :
    appidSearchLeft (appidHeader ++ (le4 appid ++ rest)) = some (le4 appid) := by
  have hpre : appidHeader.isPrefixOf (appidHeader ++ (le4 appid ++ rest)) = true :=
    isPrefixOf_refl_append _ _
  have hcons : appidHeader ++ (le4 appid ++ rest) =
      2 :: (appidHeader.tail ++ (le4 appid ++ rest)) := by
    rw [← List.cons_append, ← appidHeader_cons]
  rw [hcons, appidSearchLeft_cons, ← List.cons_append, ← appidHeader_cons, hpre]
  have hdrop : (appidHeader ++ (le4 appid ++ rest)).drop 7 = le4 appid ++ rest :=
    List.drop_left' (by decide)
  rw [hdrop]
  have h0 : appid % 256 ≠ 10 := hb10 _ (by simp [le4])
  have h1 : appid / 256 % 256 ≠ 10 := hb10 _ (by simp [le4])
  have h2 : appid / 65536 % 256 ≠ 10 := hb10 _ (by simp [le4])
  have h3 : appid / 16777216 % 256 ≠ 10 := hb10 _ (by simp [le4])
  show (match le4 appid ++ rest with
    | b0 :: b1 :: b2 :: b3 :: _ =>
      if b0 != 10 && b1 != 10 && b2 != 10 && b3 != 10 then
        some [b0, b1, b2, b3]
      else appidSearchLeft (appidHeader.tail ++ (le4 appid ++ rest))
    | _ => appidSearchLeft (appidHeader.tail ++ (le4 appid ++ rest))) = some (le4 appid)
  show (if (appid % 256 != 10) && (appid / 256 % 256 != 10) && (appid / 65536 % 256 != 10) &&
        (appid / 16777216 % 256 != 10) then
      some [appid % 256, appid / 256 % 256, appid / 65536 % 256, appid / 16777216 % 256]
    else appidSearchLeft (appidHeader.tail ++ (le4 appid ++ rest))) = some (le4 appid)
  rw [if_pos]
  · rfl
  · simp [bne_iff_ne, h0, h1, h2, h3]

theorem leVal_le4 {n : Nat} (h : n < 2 ^ 32) : leVal (le4 n) = n := by
  unfold leVal le4
  simp only [List.foldr]
  omega

/-- The bytes of the built Edge entry that precede its AppName field:
index marker and appid field (with the four trailing zero pad bytes). -/
def entryPre (idx : List Nat) (appid : Nat) : List Nat :=
  [0] ++ idx ++ [0] ++ [2] ++ ascii "appid" ++ [0] ++ le4 appid ++ [0, 0, 0, 0]

/-- The bytes of the built Edge entry that follow its AppName field. -/
def entrySuf : List Nat :=
  [1] ++ ascii "Exe" ++ [0, 34] ++ ascii "/usr/bin/flatpak" ++ [34, 0]
  ++ [1] ++ ascii "StartDir" ++ [0, 34] ++ ascii "/usr/bin" ++ [34, 0]
  ++ [1] ++ ascii "icon" ++ [0, 0]
  ++ [1] ++ ascii "ShortcutPath" ++ [0, 0]
  ++ [1] ++ ascii "LaunchOptions" ++ [0] ++ ascii "run com.microsoft.Edge" ++ [0]
  ++ [2] ++ ascii "IsHidden" ++ [0, 0, 0, 0, 0, 0]
  ++ [2] ++ ascii "AllowDesktopConfig" ++ [0, 1, 0, 0, 0]
  ++ [2] ++ ascii "AllowOverlay" ++ [0, 1, 0, 0, 0]
  ++ [2] ++ ascii "OpenVR" ++ [0, 0, 0, 0, 0]
  ++ [2] ++ ascii "Devkit" ++ [0, 0, 0, 0, 0]
  ++ [1] ++ ascii "DevkitGameID" ++ [0, 0]
  ++ [1] ++ ascii "DevkitOverrideAppID" ++ [0, 0]
  ++ [2] ++ ascii "LastPlayTime" ++ [0, 0, 0, 0, 0]
  ++ [1] ++ ascii "FlatpakAppID" ++ [0] ++ ascii "com.microsoft.Edge" ++ [0]
  ++ [0] ++ ascii "tags" ++ [0]
  ++ [8, 8]

theorem edgeEntry_decomp (idx : List Nat) (appid : Nat) :
    edgeEntry idx appid = entryPre idx appid ++ (pM ++ entrySuf) := by
  simp [edgeEntry, buildEntry, entryPre, entrySuf, pM, List.append_assoc]

theorem entryPre_decomp (idx : List Nat) (appid : Nat) :
    entryPre idx appid =
      (([0] ++ idx ++ [0]) ++ (appidHeader ++ (le4 appid ++ [0, 0, 0, 0]))) := by
  simp [entryPre, appidHeader, List.append_assoc]

theorem entryPre_length (idx : List Nat) (appid : Nat) :
    (entryPre idx appid).length = 17 + idx.length := by
  have h5 : (ascii "appid").length = 5 := by decide
  simp [entryPre, le4, h5]
  omega

theorem entryPre_ne_one {idx : List Nat} {appid : Nat}
    (hidx : ∀ b ∈ idx, b ≠ 1) (hb : ∀ b ∈ le4 appid, b ≠ 1) :
    ∀ b ∈ entryPre idx appid, b ≠ 1 := by
  intro b hbm
  simp only [entryPre, List.append_assoc, List.mem_append] at hbm
  rcases hbm with h | h | h | h | h | h | h | h
  · simp at h; omega
  · exact hidx b h
  · simp at h; omega
  · simp at h; omega
  · revert h; revert b; decide
  · simp at h; omega
  · exact hb b h
  · revert h; revert b; decide

theorem windowAppid_at_entry
    (A : List Nat) (idx : List Nat) (appid : Nat) (rest : List Nat)
    (hA : ∀ b ∈ A, b ≠ 2)
    (hidx : ∀ b ∈ idx, b ≠ 2)
    (hil : idx.length ≤ 100)
    (hb10 : ∀ b ∈ le4 appid, b ≠ 10)
    (hap : appid < 2 ^ 32) :
    windowAppid ((A ++ entryPre idx appid) ++ rest) (A ++ entryPre idx appid).length =
      some appid := by
  unfold windowAppid
  rw [List.take_left]
  have hep : (entryPre idx appid).length = 17 + idx.length := entryPre_length idx appid
  set D := (A ++ entryPre idx appid).length - 200 with hDdef
  have hD : D ≤ A.length := by
    rw [hDdef]
    simp only [List.length_append]
    omega
  rw [List.drop_append_of_le_length hD]
  rw [entryPre_decomp]
  have hskip : appidSearchLeft
      ((A.drop D) ++
        (([0] ++ idx ++ [0]) ++ (appidHeader ++ (le4 appid ++ [0, 0, 0, 0])))) =
      appidSearchLeft (appidHeader ++ (le4 appid ++ [0, 0, 0, 0])) := by
    rw [← List.append_assoc]
    apply appidSearchLeft_skip
    intro b hb
    rcases List.mem_append.mp hb with h | h
    · exact hA b (List.mem_of_mem_drop h)
    · simp only [List.append_assoc, List.mem_append] at h
      rcases h with h | h | h
      · simp at h; omega
      · exact hidx b h
      · simp at h; omega
  rw [hskip, appidSearchLeft_at_header appid _ hb10]
  show some (leVal (le4 appid)) = some appid
  rw [leVal_le4 hap]

theorem findEdge_at_inserted
    (A B : List Nat) (idx : List Nat) (appid : Nat)
    (hA : ∀ b ∈ A, b ≠ 1 ∧ b ≠ 2)
    (hidx : ∀ b ∈ idx, b ≠ 1 ∧ b ≠ 2)
    (hil : idx.length ≤ 100)
    (hb : ∀ b ∈ le4 appid, b ≠ 1 ∧ b ≠ 2 ∧ b ≠ 10)
    (hap : appid < 2 ^ 32) :
    findEdgeAppId (A ++ edgeEntry idx appid ++ B) = some appid := by
  have hr : A ++ edgeEntry idx appid ++ B =
      (A ++ entryPre idx appid) ++ (pM ++ (entrySuf ++ B)) := by
    rw [edgeEntry_decomp]
    simp [List.append_assoc]
  rw [hr]
  set r := (A ++ entryPre idx appid) ++ (pM ++ (entrySuf ++ B)) with hrdef
  rw [findEdgeAppId_eq_from]
  have hones : ∀ b ∈ A ++ entryPre idx appid, b ≠ 1 := by
    intro b hbm
    rcases List.mem_append.mp hbm with h | h
    · exact (hA b h).1
    · exact entryPre_ne_one (fun b hb2 => (hidx b hb2).1) (fun b hb2 => (hb b hb2).1) b h
  have h1 : findEdgeFrom r 0 r = findEdgeFrom r (0 + (A ++ entryPre idx appid).length)
      (pM ++ (entrySuf ++ B)) := by
    conv =>
      lhs
      rw [hrdef]
    exact findEdgeFrom_skip r (A ++ entryPre idx appid) (pM ++ (entrySuf ++ B)) 0 hones
  rw [h1, Nat.zero_add]
  have hm : appNameMatchLen (pM ++ (entrySuf ++ B)) = some 24 := appNameMatchLen_pM _
  have hw : windowAppid r ((A ++ entryPre idx appid).length) = some appid :=
    windowAppid_at_entry A idx appid _ (fun b hb2 => (hA b hb2).2)
      (fun b hb2 => (hidx b hb2).2) hil (fun b hb2 => (hb b hb2).2.2) hap
  have hpm : pM ++ (entrySuf ++ B) = 1 :: (pM.tail ++ (entrySuf ++ B)) := by
    rw [← List.cons_append, ← pM_cons]
  rw [hpm, findEdgeFrom_cons, ← List.cons_append, ← pM_cons, hm, hw]

/-- C1 (amended): for every store containing the `\x00shortcuts\x00`
marker, `insertEntry` splices the built entry at a single split point of
the store (before a trailing `\x08\x08`; else before the last `\x08` when
that byte sits at a positive offset, appending when it sits at offset 0 or
is absent), and the result's byte length is the store's length plus the
entry's length — with no further hypotheses.  `locateEntryByName` finds the
inserted entry's appid under the provisos the counterexample forces: no
string-type (1) or int32-type (2) marker byte of the store may capture the
scan first, and the appid's little-endian bytes must avoid the newline byte
10 (besides well-formedness of the builder's inputs: decimal-digit index
bytes and a 32-bit appid). -/
theorem c1_amended_insert_roundtrip (c idx : List Nat) (appid : Nat)
    (hmk : containsSub shortcutsMarker c = true) :
    (∃ k, k ≤ c.length ∧
        insertEntry c (edgeEntry idx appid) =
          c.take k ++ edgeEntry idx appid ++ c.drop k) ∧
      (insertEntry c (edgeEntry idx appid)).length =
        c.length + (edgeEntry idx appid).length ∧
      ((∀ b ∈ c, b ≠ 1 ∧ b ≠ 2) → (∀ b ∈ idx, b ≠ 1 ∧ b ≠ 2) →
        idx.length ≤ 100 → appid < 2 ^ 32 →
        (∀ b ∈ le4 appid, b ≠ 1 ∧ b ≠ 2 ∧ b ≠ 10) →
        findEdgeAppId (insertEntry c (edgeEntry idx appid)) = some appid) := by
  have hsplit : ∃ k, k ≤ c.length ∧
      insertEntry c (edgeEntry idx appid) =
        c.take k ++ edgeEntry idx appid ++ c.drop k := by
    unfold insertEntry
    rw [if_pos hmk]
    by_cases hsuf : List.isSuffixOf [8, 8] c = true
    · rw [if_pos hsuf]
      obtain ⟨p, hp⟩ : [8, 8] <:+ c := List.isSuffixOf_iff_suffix.mp hsuf
      refine ⟨c.length - 2, by omega, ?_⟩
      have htake : c.take (c.length - 2) = p := by
        rw [← hp]
        exact List.take_left' (by simp)
      have hdrop : c.drop (c.length - 2) = [8, 8] := by
        rw [← hp]
        exact List.drop_left' (by simp)
      rw [htake, hdrop]
    · rw [if_neg hsuf]
      cases hr : rfindByte c 8 with
      | some posn =>
        by_cases hpos : 0 < posn
        · dsimp only
          rw [if_pos hpos]
          exact ⟨posn, Nat.le_of_lt (rfindByte_lt hr), rfl⟩
        · dsimp only
          rw [if_neg hpos]
          exact ⟨c.length, Nat.le_refl _, by simp⟩
      | none =>
        exact ⟨c.length, Nat.le_refl _, by simp⟩
  obtain ⟨k, hk, hsp⟩ := hsplit
  refine ⟨⟨k, hk, hsp⟩, ?_, ?_⟩
  · rw [hsp]
    simp only [List.length_append, List.length_take, List.length_drop]
    omega
  · intro hc hidx hil hap hb
    rw [hsp]
    exact findEdge_at_inserted (c.take k) (c.drop k) idx appid
      (fun b hb2 => hc b (List.mem_of_mem_take hb2)) hidx hil hb hap

/-- C1 witness: the amended theorem applied to the bare store
`\x00shortcuts\x00 ++ [8, 8]`, index `"0"` and appid 5, discharging every
hypothesis of the locate proviso. -/
theorem c1_witness :
    (∃ k, k ≤ (shortcutsMarker ++ [8, 8]).length ∧
        insertEntry (shortcutsMarker ++ [8, 8]) (edgeEntry [48] 5) =
          (shortcutsMarker ++ [8, 8]).take k ++ edgeEntry [48] 5 ++
            (shortcutsMarker ++ [8, 8]).drop k) ∧
      (insertEntry (shortcutsMarker ++ [8, 8]) (edgeEntry [48] 5)).length =
        (shortcutsMarker ++ [8, 8]).length + (edgeEntry [48] 5).length ∧
      findEdgeAppId (insertEntry (shortcutsMarker ++ [8, 8]) (edgeEntry [48] 5)) =
        some 5 :=
  have h := c1_amended_insert_roundtrip (shortcutsMarker ++ [8, 8]) [48] 5 (by decide)
  ⟨h.1, h.2.1, h.2.2 (by decide) (by decide) (by decide) (by decide) (by decide)⟩

/-! ## Claim C7: launch-options append in the binary store
(`modify_shortcuts_vdf`, source lines 182-203) -/

/-- Leftmost match of `rb"\x01LaunchOptions\x00([^\x00]*)\x00"`
(`launch_options_pattern.search`, source line 191): at each position, the
15-byte header must match, the value is the maximal run of non-zero bytes
after it, and a terminating zero byte must follow inside the segment. -/
def launchSearch : List Nat → Option (List Nat)
  | [] => none
  | s@(_ :: t) =>
    if launchHeader.isPrefixOf s then
      if ((s.drop 15).drop ((s.drop 15).takeWhile (fun b => b != 0)).length).head? == some 0 then
        some ((s.drop 15).takeWhile (fun b => b != 0))
      else launchSearch t
    else launchSearch t

/-- The `LaunchOptions` value found in the window
`content[max(0, start - 200) : start + 500]` around an AppName match at
`start` (source lines 184-191). -/
def launchValueAt (c : List Nat) (pos : Nat) : Option (List Nat) :=
  launchSearch ((c.take (pos + 500)).drop (pos - 200))

/-- The launch-options step of `modify_shortcuts_vdf` for one AppName match
at `pos` (source lines 184-202): search the window for the LaunchOptions
field; if its value lacks the kiosk guard substring, `bytes.replace` the old
field bytes with the extended field bytes over the whole store; otherwise
leave the store as it is. -/
def applyLaunchOptionsAt (c : List Nat) (pos : Nat) : List Nat :=
  match launchValueAt c pos with
  | none => c
  | some v =>
    if containsSub kioskBytes v then c
    else replaceAll c (launchHeader ++ v ++ [0])
      (launchHeader ++ (v ++ [32] ++ launchOptionsBytes) ++ [0])

theorem isPrefixOf_append_right {p s : List Nat} (u : List Nat)
    (h : p.isPrefixOf s = true) : p.isPrefixOf (s ++ u) = true := by
  induction p generalizing s with
  | nil => simp
  | cons a p' ih =>
    cases s with
    | nil => cases h
    | cons b s' =>
      simp only [List.isPrefixOf, Bool.and_eq_true] at h
      simp only [List.cons_append, List.isPrefixOf, Bool.and_eq_true]
      exact ⟨h.1, ih h.2⟩

theorem containsSub_cons (p : List Nat) (x : Nat) (t : List Nat) :
    containsSub p (x :: t) = (p.isPrefixOf (x :: t) || containsSub p t) := rfl

theorem containsSub_nil_left (s : List Nat) : containsSub [] s = true := by
  cases s <;> simp [containsSub]

theorem containsSub_self_append (t X : List Nat) : containsSub t (t ++ X) = true := by
  cases t with
  | nil => simpa using containsSub_nil_left X
  | cons a t' =>
    rw [List.cons_append, containsSub_cons, Bool.or_eq_true_iff]
    left
    rw [← List.cons_append]
    exact isPrefixOf_refl_append _ _

theorem containsSub_append_right {p s : List Nat} (u : List Nat)
    (h : containsSub p s = true) : containsSub p (s ++ u) = true := by
  induction s with
  | nil =>
    unfold containsSub at h
    have hp : p = [] := List.isEmpty_iff.mp h
    subst hp
    cases u with
    | nil => rfl
    | cons x t => rw [List.nil_append, containsSub_cons]; simp
  | cons c s' ih =>
    rw [containsSub_cons] at h
    rw [List.cons_append, containsSub_cons, Bool.or_eq_true_iff]
    rcases Bool.or_eq_true_iff.mp h with h | h
    · left
      rw [← List.cons_append]
      exact isPrefixOf_append_right u h
    · right
      exact ih h

theorem containsSub_append_left {p s : List Nat} (u : List Nat)
    (h : containsSub p s = true) : containsSub p (u ++ s) = true := by
  induction u with
  | nil => exact h
  | cons x u' ih =>
    rw [List.cons_append, containsSub_cons, Bool.or_eq_true_iff]
    right
    exact ih

theorem containsSub_of_take {p c : List Nat} {n : Nat}
    (h : containsSub p (c.take n) = true) : containsSub p c = true := by
  have h2 := containsSub_append_right (c.drop n) h
  rwa [List.take_append_drop] at h2

theorem containsSub_of_drop {p c : List Nat} {n : Nat}
    (h : containsSub p (c.drop n) = true) : containsSub p c = true := by
  have h2 := containsSub_append_left (c.take n) h
  rwa [List.take_append_drop] at h2

theorem launchSearch_cons (x : Nat) (t : List Nat) :
    launchSearch (x :: t) =
      if launchHeader.isPrefixOf (x :: t) then
        if (((x :: t).drop 15).drop
            (((x :: t).drop 15).takeWhile (fun b => b != 0)).length).head? == some 0 then
          some (((x :: t).drop 15).takeWhile (fun b => b != 0))
        else launchSearch t
      else launchSearch t := rfl

theorem launchSearch_sound {s v : List Nat} (h : launchSearch s = some v) :
    containsSub (launchHeader ++ v ++ [0]) s = true := by
  induction s with
  | nil => cases h
  | cons x t ih =>
    rw [launchSearch_cons] at h
    by_cases hp : launchHeader.isPrefixOf (x :: t) = true
    · rw [if_pos hp] at h
      by_cases hterm :
          (((x :: t).drop 15).drop
            (((x :: t).drop 15).takeWhile (fun b => b != 0)).length).head? = some 0
      · rw [if_pos (by rw [hterm]; rfl)] at h
        injection h with hv
        obtain ⟨r, hr⟩ : launchHeader <+: (x :: t) := List.isPrefixOf_iff_prefix.mp hp
        have hr15 : (x :: t).drop 15 = r := by
          rw [← hr]
          exact List.drop_left' (by decide)
        rw [hr15] at hv hterm
        have hsplit : (List.takeWhile (fun b => b != 0) r) ++
            (List.dropWhile (fun b => b != 0) r) = r :=
          List.takeWhile_append_dropWhile _ _
        have hdw : r.drop (List.takeWhile (fun b => b != 0) r).length =
            List.dropWhile (fun b => b != 0) r := by
          have h2 : List.drop (List.takeWhile (fun b => b != 0) r).length
              (List.takeWhile (fun b => b != 0) r ++ List.dropWhile (fun b => b != 0) r) =
              List.dropWhile (fun b => b != 0) r := List.drop_left _ _
          rwa [hsplit] at h2
        rw [hdw] at hterm
        obtain ⟨w, hw⟩ : ∃ w, List.dropWhile (fun b => b != 0) r = 0 :: w := by
          cases hdwc : List.dropWhile (fun b => b != 0) r with
          | nil => rw [hdwc] at hterm; cases hterm
          | cons y w =>
            rw [hdwc] at hterm
            simp only [List.head?] at hterm
            injection hterm with hy
            exact ⟨w, by rw [hy]⟩
        have hs : (x :: t) = (launchHeader ++ v ++ [0]) ++ w := by
          rw [← hr]
          have hrv : r = v ++ (0 :: w) := by
            rw [← hsplit, hv, hw]
          rw [hrv]
          simp
        rw [hs]
        exact containsSub_self_append _ _
      · rw [if_neg (by simpa using hterm)] at h
        rw [containsSub_cons, Bool.or_eq_true_iff]
        right
        exact ih h
    · rw [if_neg hp] at h
      rw [containsSub_cons, Bool.or_eq_true_iff]
      right
      exact ih h

theorem containsSub_replaceAll_fuel {t p : List Nat} (hp : p ≠ []) :
    ∀ n s, s.length ≤ n → containsSub p s = true →
      containsSub t (replaceAll s p t) = true := by
  intro n
  induction n with
  | zero =>
    intro s hle h
    have hnil : s = [] := List.eq_nil_of_length_eq_zero (Nat.le_zero.mp hle)
    subst hnil
    unfold containsSub at h
    exact absurd (List.isEmpty_iff.mp h) hp
  | succ n ih =>
    intro s hle h
    cases s with
    | nil =>
      unfold containsSub at h
      exact absurd (List.isEmpty_iff.mp h) hp
    | cons c s' =>
      rw [replaceAll_cons]
      by_cases hpre : p.isPrefixOf (c :: s') = true
      · rw [if_pos ⟨hp, hpre⟩]
        exact containsSub_self_append t _
      · have hcond : ¬(p ≠ [] ∧ p.isPrefixOf (c :: s') = true) := fun hc => hpre hc.2
        rw [if_neg hcond]
        unfold containsSub at h
        rcases Bool.or_eq_true_iff.mp h with h1 | h1
        · exact absurd h1 hpre
        · unfold containsSub
          rw [Bool.or_eq_true_iff]
          right
          exact ih s' (by simp only [List.length_cons] at hle; omega) h1

theorem containsSub_replaceAll {s p t : List Nat} (hp : p ≠ [])
    (h : containsSub p s = true) : containsSub t (replaceAll s p t) = true :=
  containsSub_replaceAll_fuel hp s.length s (Nat.le_refl _) h

/-- A store slice: an `Edge` AppName match at position 0 followed by a
`LaunchOptions` field whose value is exactly the kiosk guard substring (so
it contains the guard but not the whole `LAUNCH_OPTIONS` string). -/
def c7ex : List Nat := pE ++ launchHeader ++ kioskBytes ++ [0]

/-- C7 counterexample: the window's LaunchOptions value does *not* contain
the options string `LAUNCH_OPTIONS`, yet the operation returns the store
unchanged — the source only guards on the kiosk substring (line 195), while
the claim demands a rewrite (appending a nonempty suffix) whenever the full
options string is absent. -/
theorem c7_counterexample :
    launchValueAt c7ex 0 = some kioskBytes ∧
      containsSub launchOptionsBytes kioskBytes = false ∧
      applyLaunchOptionsAt c7ex 0 = c7ex := by
  refine ⟨by decide, by decide, by decide⟩

/-- C7 (amended): for every store and match position, with the window
spanning 200 bytes back and 500 bytes forward of the match: if no
LaunchOptions field is found the store is unchanged; if the field's value
already contains the kiosk guard substring `--kiosk "https://www.xbox.com/play"`
(not the full options string) the store is unchanged; otherwise every
occurrence of the old field bytes in the whole store (not only that field)
is replaced by the field extended with a space and `LAUNCH_OPTIONS`, and
the extended field is a substring of the result. -/
theorem c7_amended_append_behavior (c : List Nat) (pos : Nat) :
    (launchValueAt c pos = none → applyLaunchOptionsAt c pos = c) ∧
      (∀ v, launchValueAt c pos = some v → containsSub kioskBytes v = true →
        applyLaunchOptionsAt c pos = c) ∧
      (∀ v, launchValueAt c pos = some v → containsSub kioskBytes v = false →
        applyLaunchOptionsAt c pos =
            replaceAll c (launchHeader ++ v ++ [0])
              (launchHeader ++ (v ++ [32] ++ launchOptionsBytes) ++ [0]) ∧
          containsSub (launchHeader ++ (v ++ [32] ++ launchOptionsBytes) ++ [0])
            (applyLaunchOptionsAt c pos) = true) := by
  refine ⟨?_, ?_, ?_⟩
  · intro h
    unfold applyLaunchOptionsAt
    rw [h]
  · intro v hv hk
    unfold applyLaunchOptionsAt
    rw [hv]
    dsimp only
    rw [if_pos hk]
  · intro v hv hk
    have hne : launchHeader ++ v ++ [0] ≠ [] := by simp [launchHeader]
    have hfield : containsSub (launchHeader ++ v ++ [0]) c = true := by
      have h1 := launchSearch_sound (show launchSearch ((c.take (pos + 500)).drop (pos - 200)) = some v from hv)
      exact containsSub_of_take (containsSub_of_drop h1)
    have heq : applyLaunchOptionsAt c pos =
        replaceAll c (launchHeader ++ v ++ [0])
          (launchHeader ++ (v ++ [32] ++ launchOptionsBytes) ++ [0]) := by
      unfold applyLaunchOptionsAt
      rw [hv]
      dsimp only
      rw [if_neg (by rw [hk]; simp)]
    exact ⟨heq, by rw [heq]; exact containsSub_replaceAll hne hfield⟩

/-- C7 witness: the amended theorem's already-present branch applied to the
concrete store `c7ex`. -/
theorem c7_witness : applyLaunchOptionsAt c7ex 0 = c7ex :=
  (c7_amended_append_behavior c7ex 0).2.1 kioskBytes (by decide) (by decide)

/-! ## Claim C9: `renameEntry` (the rename loop of `modify_shortcuts_vdf`,
source lines 170-180) -/

/-- Fuelled scan for the matched byte strings of
`edge_pattern.finditer(content)`: at each position try the
`Microsoft Edge` alternative first, then `Edge`, collecting the full
matched bytes and continuing behind the match. -/
def findGroupsGo : Nat → List Nat → List (List Nat)
  | 0, _ => []
  | _ + 1, [] => []
  | fuel + 1, s@(_ :: t) =>
    if pM.isPrefixOf s then pM :: findGroupsGo fuel (s.drop 24)
    else if pE.isPrefixOf s then pE :: findGroupsGo fuel (s.drop 14)
    else findGroupsGo fuel t

/-- The list of matched AppName byte strings of the store. -/
def findGroups (c : List Nat) : List (List Nat) :=
  findGroupsGo c.length c

theorem findGroupsGo_succ_cons (f : Nat) (x : Nat) (t : List Nat) :
    findGroupsGo (f + 1) (x :: t) =
      if pM.isPrefixOf (x :: t) then pM :: findGroupsGo f ((x :: t).drop 24)
      else if pE.isPrefixOf (x :: t) then pE :: findGroupsGo f ((x :: t).drop 14)
      else findGroupsGo f t := rfl

theorem findGroupsGo_congr :
    ∀ f₁ f₂ s, s.length ≤ f₁ → s.length ≤ f₂ →
      findGroupsGo f₁ s = findGroupsGo f₂ s := by
  intro f₁
  induction f₁ with
  | zero =>
    intro f₂ s h1 _
    have : s = [] := List.eq_nil_of_length_eq_zero (Nat.le_zero.mp h1)
    subst this
    cases f₂ <;> rfl
  | succ f ih =>
    intro f₂ s h1 h2
    cases f₂ with
    | zero =>
      have : s = [] := List.eq_nil_of_length_eq_zero (Nat.le_zero.mp h2)
      subst this
      rfl
    | succ f' =>
      cases s with
      | nil => rfl
      | cons x t =>
        simp only [List.length_cons] at h1 h2
        rw [findGroupsGo_succ_cons, findGroupsGo_succ_cons]
        by_cases hM : pM.isPrefixOf (x :: t) = true
        · rw [if_pos hM, if_pos hM]
          exact congrArg (fun l => pM :: l)
            (ih f' ((x :: t).drop 24)
              (by simp only [List.length_drop, List.length_cons]; omega)
              (by simp only [List.length_drop, List.length_cons]; omega))
        · rw [if_neg hM, if_neg hM]
          by_cases hE : pE.isPrefixOf (x :: t) = true
          · rw [if_pos hE, if_pos hE]
            exact congrArg (fun l => pE :: l)
              (ih f' ((x :: t).drop 14)
                (by simp only [List.length_drop, List.length_cons]; omega)
                (by simp only [List.length_drop, List.length_cons]; omega))
          · rw [if_neg hE, if_neg hE]
            exact ih f' t (by omega) (by omega)

/-- Length-as-fuel entry point for `findGroupsGo`
(`findGroups c = findGroupsFrom c`). -/
def findGroupsFrom (s : List Nat) : List (List Nat) :=
  findGroupsGo s.length s

theorem findGroupsFrom_cons (x : Nat) (t : List Nat) :
    findGroupsFrom (x :: t) =
      if pM.isPrefixOf (x :: t) then pM :: findGroupsFrom ((x :: t).drop 24)
      else if pE.isPrefixOf (x :: t) then pE :: findGroupsFrom ((x :: t).drop 14)
      else findGroupsFrom t := by
  show findGroupsGo (t.length + 1) (x :: t) = _
  rw [findGroupsGo_succ_cons]
  by_cases hM : pM.isPrefixOf (x :: t) = true
  · rw [if_pos hM, if_pos hM]
    exact congrArg (fun l => pM :: l)
      (findGroupsGo_congr t.length ((x :: t).drop 24).length ((x :: t).drop 24)
        (by simp only [List.length_drop, List.length_cons]; omega) (Nat.le_refl _))
  · rw [if_neg hM, if_neg hM]
    by_cases hE : pE.isPrefixOf (x :: t) = true
    · rw [if_pos hE, if_pos hE]
      exact congrArg (fun l => pE :: l)
        (findGroupsGo_congr t.length ((x :: t).drop 14).length ((x :: t).drop 14)
          (by simp only [List.length_drop, List.length_cons]; omega) (Nat.le_refl _))
    · rw [if_neg hE, if_neg hE]
      exact findGroupsGo_congr t.length t.length t (Nat.le_refl _) (Nat.le_refl _)

/-- `b"\x01AppName\x00" + new_name.encode("utf-8") + b"\x00"`
(source line 179). -/
def newNamePat (nn : List Nat) : List Nat := [1] ++ ascii "AppName" ++ [0] ++ nn ++ [0]

/-- `renameEntry`: the rename portion of the `modify_shortcuts_vdf` loop
(source lines 170-180): for each matched old-name pattern, in match order,
replace every occurrence of the matched bytes by the pattern built from the
new name. -/
def renameEntry (c nn : List Nat) : List Nat :=
  (findGroups c).foldl (fun acc p => replaceAll acc p (newNamePat nn)) c

theorem findGroups_sound (c : List Nat) :
    ∀ p ∈ findGroups c, p = pM ∨ p = pE := by
  show ∀ p ∈ findGroupsGo c.length c, p = pM ∨ p = pE
  generalize c.length = fuel
  induction fuel generalizing c with
  | zero => intro p hp; cases hp
  | succ f ih =>
    intro p hp
    cases c with
    | nil => cases hp
    | cons x t =>
      rw [findGroupsGo_succ_cons] at hp
      by_cases hM : pM.isPrefixOf (x :: t) = true
      · rw [if_pos hM] at hp
        rcases List.mem_cons.mp hp with h | h
        · exact Or.inl h
        · exact ih _ p h
      · rw [if_neg hM] at hp
        by_cases hE : pE.isPrefixOf (x :: t) = true
        · rw [if_pos hE] at hp
          rcases List.mem_cons.mp hp with h | h
          · exact Or.inr h
          · exact ih _ p h
        · rw [if_neg hE] at hp
          exact ih _ p hp

theorem isPrefixOf_append_cases {Q u R : List Nat}
    (h : Q.isPrefixOf (u ++ R) = true) :
    Q.isPrefixOf u = true ∨ u.isPrefixOf Q = true := by
  induction u generalizing Q with
  | nil => right; simp
  | cons a u' ih =>
    cases Q with
    | nil => left; simp
    | cons q Q' =>
      rw [List.cons_append] at h
      simp only [List.isPrefixOf, Bool.and_eq_true] at h
      rcases ih h.2 with h2 | h2
      · left
        simp only [List.isPrefixOf, Bool.and_eq_true]
        exact ⟨h.1, h2⟩
      · right
        simp only [List.isPrefixOf, Bool.and_eq_true]
        constructor
        · rw [Nat.beq_eq_true_eq] at h ⊢
          omega
        · exact h2

theorem isPrefixOf_append_false {Q u : List Nat} (R : List Nat)
    (h1 : Q.isPrefixOf u = false) (h2 : u.isPrefixOf Q = false) :
    Q.isPrefixOf (u ++ R) = false := by
  cases hp : Q.isPrefixOf (u ++ R) with
  | false => rfl
  | true =>
    rcases isPrefixOf_append_cases hp with h | h
    · rw [h] at h1; cases h1
    · rw [h] at h2; cases h2

theorem isPrefixOf_append_cancel (u a b : List Nat) :
    (u ++ a).isPrefixOf (u ++ b) = a.isPrefixOf b := by
  induction u with
  | nil => simp
  | cons x u' ih => simpa using ih

theorem zero_term_prefix_eq {m nn : List Nat}
    (hm : ∀ b ∈ m, b ≠ 0) (hn : ∀ b ∈ nn, b ≠ 0)
    (h : (m ++ [0]).isPrefixOf (nn ++ [0]) = true) : m = nn := by
  induction m generalizing nn with
  | nil =>
    cases nn with
    | nil => rfl
    | cons a nn' =>
      rw [List.nil_append, List.cons_append] at h
      simp only [List.isPrefixOf, Bool.and_eq_true] at h
      have : (0 : Nat) = a := eq_of_beq h.1
      exact absurd this.symm (hn a (List.mem_cons_self a nn'))
  | cons b m' ih =>
    cases nn with
    | nil =>
      rw [List.cons_append, List.nil_append] at h
      simp only [List.isPrefixOf, Bool.and_eq_true] at h
      have hb0 : b = 0 := eq_of_beq h.1
      exact absurd hb0 (hm b (List.mem_cons_self b m'))
    | cons a nn' =>
      rw [List.cons_append, List.cons_append] at h
      simp only [List.isPrefixOf, Bool.and_eq_true] at h
      have hba : b = a := eq_of_beq h.1
      have hm' : m' = nn' := ih (fun x hx => hm x (List.mem_cons_of_mem b hx))
        (fun x hx => hn x (List.mem_cons_of_mem a hx)) h.2
      rw [hba, hm']

theorem containsSub_skip_ones {Q qt : List Nat} (hQ : Q = 1 :: qt) :
    ∀ xs R, (∀ b ∈ xs, b ≠ 1) →
      containsSub Q (xs ++ R) = containsSub Q R := by
  intro xs
  induction xs with
  | nil => intro R _; rfl
  | cons x xs' ih =>
    intro R hx
    rw [List.cons_append, containsSub_cons,
      isPrefixOf_cons_false hQ (hx x (List.mem_cons_self x xs')),
      ih R (fun b hb => hx b (List.mem_cons_of_mem x hb))]
    rfl

theorem isPrefixOf_replaceAll_transfer {P N nt : List Nat} (hN : N = 1 :: nt) :
    ∀ (n : Nat) (s q : List Nat), s.length ≤ n → (∀ b ∈ q, b ≠ 1) →
      q.isPrefixOf (replaceAll s P N) = true → q.isPrefixOf s = true := by
  intro n
  induction n with
  | zero =>
    intro s q hle _ h
    have hnil : s = [] := List.eq_nil_of_length_eq_zero (Nat.le_zero.mp hle)
    subst hnil
    simpa using h
  | succ n ih =>
    intro s q hle hq h
    cases s with
    | nil => simpa using h
    | cons c s' =>
      rw [replaceAll_cons] at h
      by_cases hcond : P ≠ [] ∧ P.isPrefixOf (c :: s') = true
      · rw [if_pos hcond] at h
        cases q with
        | nil => simp
        | cons b q' =>
          rw [hN, List.cons_append] at h
          simp only [List.isPrefixOf, Bool.and_eq_true] at h
          have hb : b = 1 := eq_of_beq h.1
          exact absurd hb (hq b (List.mem_cons_self b q'))
      · rw [if_neg hcond] at h
        cases q with
        | nil => simp
        | cons b q' =>
          simp only [List.isPrefixOf, Bool.and_eq_true] at h ⊢
          refine ⟨h.1, ?_⟩
          exact ih s' q' (by simp only [List.length_cons] at hle; omega)
            (fun x hx => hq x (List.mem_cons_of_mem b hx)) h.2

theorem containsSub_replaceAll_self_false {Q qt N nt : List Nat}
    (hQ : Q = 1 :: qt) (hqt : ∀ b ∈ qt, b ≠ 1)
    (hN : N = 1 :: nt) (hnt : ∀ b ∈ nt, b ≠ 1)
    (hQN : Q.isPrefixOf N = false) (hNQ : N.isPrefixOf Q = false) :
    ∀ (n : Nat) (s : List Nat), s.length ≤ n →
      containsSub Q (replaceAll s Q N) = false := by
  intro n
  induction n with
  | zero =>
    intro s hle
    have hnil : s = [] := List.eq_nil_of_length_eq_zero (Nat.le_zero.mp hle)
    subst hnil
    rw [replaceAll_nil]
    unfold containsSub
    rw [hQ]
    rfl
  | succ n ih =>
    intro s hle
    cases s with
    | nil =>
      rw [replaceAll_nil]
      unfold containsSub
      rw [hQ]
      rfl
    | cons c s' =>
      rw [replaceAll_cons]
      by_cases hpre : Q.isPrefixOf (c :: s') = true
      · rw [if_pos ⟨by rw [hQ]; simp, hpre⟩]
        have hskip : containsSub Q (N ++ replaceAll ((c :: s').drop Q.length) Q N) =
            containsSub Q (replaceAll ((c :: s').drop Q.length) Q N) := by
          rw [hN, List.cons_append, containsSub_cons, ← List.cons_append, ← hN,
            isPrefixOf_append_false _ hQN hNQ,
            containsSub_skip_ones hQ nt _ hnt]
          rfl
        rw [hskip]
        refine ih ((c :: s').drop Q.length) ?_
        have hQlen : 0 < Q.length := by rw [hQ]; simp
        simp only [List.length_drop, List.length_cons]
        simp only [List.length_cons] at hle
        omega
      · have hcond : ¬(Q ≠ [] ∧ Q.isPrefixOf (c :: s') = true) := fun hc => hpre hc.2
        rw [if_neg hcond]
        rw [containsSub_cons]
        have htail : containsSub Q (replaceAll s' Q N) = false :=
          ih s' (by simp only [List.length_cons] at hle; omega)
        have hhead : Q.isPrefixOf (c :: replaceAll s' Q N) = false := by
          cases hp : Q.isPrefixOf (c :: replaceAll s' Q N) with
          | false => rfl
          | true =>
            exfalso
            rw [hQ] at hp
            simp only [List.isPrefixOf, Bool.and_eq_true] at hp
            have hc1 : (1 : Nat) = c := eq_of_beq hp.1
            have hqs : qt.isPrefixOf s' = true :=
              isPrefixOf_replaceAll_transfer hN s'.length s' qt (Nat.le_refl _) hqt hp.2
            have : Q.isPrefixOf (c :: s') = true := by
              rw [hQ]
              simp only [List.isPrefixOf, Bool.and_eq_true]
              exact ⟨by rw [← hc1]; rfl, hqs⟩
            exact hpre this
        rw [hhead, htail]
        rfl

theorem containsSub_replaceAll_preserve {Q qt N nt : List Nat} (P : List Nat)
    (hQ : Q = 1 :: qt) (hqt : ∀ b ∈ qt, b ≠ 1)
    (hN : N = 1 :: nt) (hnt : ∀ b ∈ nt, b ≠ 1)
    (hQN : Q.isPrefixOf N = false) (hNQ : N.isPrefixOf Q = false) :
    ∀ (n : Nat) (s : List Nat), s.length ≤ n → containsSub Q s = false →
      containsSub Q (replaceAll s P N) = false := by
  intro n
  induction n with
  | zero =>
    intro s hle _
    have hnil : s = [] := List.eq_nil_of_length_eq_zero (Nat.le_zero.mp hle)
    subst hnil
    rw [replaceAll_nil]
    unfold containsSub
    rw [hQ]
    rfl
  | succ n ih =>
    intro s hle hs
    cases s with
    | nil =>
      rw [replaceAll_nil]
      unfold containsSub
      rw [hQ]
      rfl
    | cons c s' =>
      rw [containsSub_cons] at hs
      have hs1 : Q.isPrefixOf (c :: s') = false := by
        cases hp : Q.isPrefixOf (c :: s') with
        | false => rfl
        | true => rw [hp] at hs; simp at hs
      have hs2 : containsSub Q s' = false := by
        cases hp : containsSub Q s' with
        | false => rfl
        | true => rw [hp] at hs; simp at hs
      rw [replaceAll_cons]
      by_cases hcond : P ≠ [] ∧ P.isPrefixOf (c :: s') = true
      · rw [if_pos hcond]
        have hdropf : containsSub Q ((c :: s').drop P.length) = false := by
          cases hp : containsSub Q ((c :: s').drop P.length) with
          | false => rfl
          | true =>
            have := containsSub_of_drop hp
            rw [containsSub_cons] at this
            rw [hs1, hs2] at this
            cases this
        have hrec : containsSub Q (replaceAll ((c :: s').drop P.length) P N) = false := by
          refine ih ((c :: s').drop P.length) ?_ hdropf
          have hPlen : 0 < P.length := List.length_pos.mpr hcond.1
          simp only [List.length_drop, List.length_cons]
          simp only [List.length_cons] at hle
          omega
        rw [hN, List.cons_append, containsSub_cons, ← List.cons_append, ← hN,
          isPrefixOf_append_false _ hQN hNQ,
          containsSub_skip_ones hQ nt _ hnt, hrec]
        rfl
      · rw [if_neg hcond]
        rw [containsSub_cons]
        have htail : containsSub Q (replaceAll s' P N) = false :=
          ih s' (by simp only [List.length_cons] at hle; omega) hs2
        have hhead : Q.isPrefixOf (c :: replaceAll s' P N) = false := by
          cases hp : Q.isPrefixOf (c :: replaceAll s' P N) with
          | false => rfl
          | true =>
            exfalso
            rw [hQ] at hp
            simp only [List.isPrefixOf, Bool.and_eq_true] at hp
            have hc1 : (1 : Nat) = c := eq_of_beq hp.1
            have hqs : qt.isPrefixOf s' = true :=
              isPrefixOf_replaceAll_transfer hN s'.length s' qt (Nat.le_refl _) hqt hp.2
            have hcontra : Q.isPrefixOf (c :: s') = true := by
              rw [hQ]
              simp only [List.isPrefixOf, Bool.and_eq_true]
              exact ⟨by rw [← hc1]; rfl, hqs⟩
            rw [hcontra] at hs1
            cases hs1
        rw [hhead, htail]
        rfl

theorem containsSub_pE_through_pM (rest : List Nat) :
    containsSub pE (pM ++ rest) = containsSub pE rest := by
  have hM : pM = [1, 65, 112, 112, 78, 97, 109, 101, 0, 77, 105, 99, 114, 111, 115,
      111, 102, 116, 32, 69, 100, 103, 101, 0] := by decide
  have hE : pE = [1, 65, 112, 112, 78, 97, 109, 101, 0, 69, 100, 103, 101, 0] := by decide
  rw [hM, hE]
  simp [containsSub_cons, List.isPrefixOf]

theorem containsSub_pM_through_pE (rest : List Nat) :
    containsSub pM (pE ++ rest) = containsSub pM rest := by
  have hM : pM = [1, 65, 112, 112, 78, 97, 109, 101, 0, 77, 105, 99, 114, 111, 115,
      111, 102, 116, 32, 69, 100, 103, 101, 0] := by decide
  have hE : pE = [1, 65, 112, 112, 78, 97, 109, 101, 0, 69, 100, 103, 101, 0] := by decide
  rw [hM, hE]
  simp [containsSub_cons, List.isPrefixOf]

theorem findGroupsFrom_nil_of_no_match :
    ∀ (n : Nat) (s : List Nat), s.length ≤ n →
      containsSub pM s = false → containsSub pE s = false →
      findGroupsFrom s = [] := by
  intro n
  induction n with
  | zero =>
    intro s hle _ _
    have hnil : s = [] := List.eq_nil_of_length_eq_zero (Nat.le_zero.mp hle)
    subst hnil
    rfl
  | succ n ih =>
    intro s hle hM hE
    cases s with
    | nil => rfl
    | cons x t =>
      rw [containsSub_cons] at hM hE
      have hM1 : pM.isPrefixOf (x :: t) = false := by
        cases hp : pM.isPrefixOf (x :: t) with
        | false => rfl
        | true => rw [hp] at hM; simp at hM
      have hM2 : containsSub pM t = false := by
        cases hp : containsSub pM t with
        | false => rfl
        | true => rw [hp] at hM; simp at hM
      have hE1 : pE.isPrefixOf (x :: t) = false := by
        cases hp : pE.isPrefixOf (x :: t) with
        | false => rfl
        | true => rw [hp] at hE; simp at hE
      have hE2 : containsSub pE t = false := by
        cases hp : containsSub pE t with
        | false => rfl
        | true => rw [hp] at hE; simp at hE
      rw [findGroupsFrom_cons, if_neg (by rw [hM1]; simp), if_neg (by rw [hE1]; simp)]
      exact ih t (by simp only [List.length_cons] at hle; omega) hM2 hE2

theorem findGroupsFrom_complete :
    ∀ (n : Nat) (s Q : List Nat), s.length ≤ n → (Q = pM ∨ Q = pE) →
      containsSub Q s = true → Q ∈ findGroupsFrom s := by
  intro n
  induction n with
  | zero =>
    intro s Q hle hQ h
    have hnil : s = [] := List.eq_nil_of_length_eq_zero (Nat.le_zero.mp hle)
    subst hnil
    unfold containsSub at h
    have : Q = [] := List.isEmpty_iff.mp h
    rcases hQ with h2 | h2 <;> rw [h2] at this <;> cases this
  | succ n ih =>
    intro s Q hle hQ h
    cases s with
    | nil =>
      unfold containsSub at h
      have : Q = [] := List.isEmpty_iff.mp h
      rcases hQ with h2 | h2 <;> rw [h2] at this <;> cases this
    | cons x t =>
      simp only [List.length_cons] at hle
      rw [findGroupsFrom_cons]
      by_cases hM : pM.isPrefixOf (x :: t) = true
      · rw [if_pos hM]
        rcases hQ with hQ2 | hQ2
        · subst hQ2
          exact List.mem_cons_self _ _
        · subst hQ2
          obtain ⟨r, hr⟩ : pM <+: (x :: t) := List.isPrefixOf_iff_prefix.mp hM
        -- occurrence of pE survives past the pM block
          have hdrop : (x :: t).drop 24 = r := by
            rw [← hr]
            exact List.drop_left' (by decide)
          have hrest : containsSub pE r = true := by
            rw [← hr, containsSub_pE_through_pM] at h
            exact h
          refine List.mem_cons_of_mem _ ?_
          rw [hdrop]
          refine ih r pE ?_ (Or.inr rfl) hrest
          have : (x :: t).length = 24 + r.length := by
            rw [← hr]
            simp [List.length_append]
            decide
          simp only [List.length_cons] at this
          omega
      · rw [if_neg hM]
        by_cases hE : pE.isPrefixOf (x :: t) = true
        · rw [if_pos hE]
          rcases hQ with hQ2 | hQ2
          · subst hQ2
            obtain ⟨r, hr⟩ : pE <+: (x :: t) := List.isPrefixOf_iff_prefix.mp hE
            have hdrop : (x :: t).drop 14 = r := by
              rw [← hr]
              exact List.drop_left' (by decide)
            have hrest : containsSub pM r = true := by
              rw [← hr, containsSub_pM_through_pE] at h
              exact h
            refine List.mem_cons_of_mem _ ?_
            rw [hdrop]
            refine ih r pM ?_ (Or.inl rfl) hrest
            have : (x :: t).length = 14 + r.length := by
              rw [← hr]
              simp [List.length_append]
              decide
            simp only [List.length_cons] at this
            omega
          · subst hQ2
            exact List.mem_cons_self _ _
        · rw [if_neg hE]
          rw [containsSub_cons] at h
          rcases Bool.or_eq_true_iff.mp h with h1 | h1
          · rcases hQ with hQ2 | hQ2
            · rw [hQ2] at h1; rw [h1] at hM; cases hM rfl
            · rw [hQ2] at h1; rw [h1] at hE; cases hE rfl
          · exact ih t Q (by omega) hQ h1

theorem containsSub_fold_false {Q qt N nt : List Nat}
    (hQ : Q = 1 :: qt) (hqt : ∀ b ∈ qt, b ≠ 1)
    (hN : N = 1 :: nt) (hnt : ∀ b ∈ nt, b ≠ 1)
    (hQN : Q.isPrefixOf N = false) (hNQ : N.isPrefixOf Q = false) :
    ∀ (pats : List (List Nat)) (acc : List Nat),
      (Q ∈ pats ∨ containsSub Q acc = false) →
      containsSub Q (pats.foldl (fun a p => replaceAll a p N) acc) = false := by
  intro pats
  induction pats with
  | nil =>
    intro acc h
    rcases h with h | h
    · cases h
    · exact h
  | cons p ps ih =>
    intro acc h
    rw [List.foldl_cons]
    rcases h with h | h
    · rcases List.mem_cons.mp h with h2 | h2
      · subst h2
        exact ih _ (Or.inr (containsSub_replaceAll_self_false hQ hqt hN hnt hQN hNQ
          acc.length acc (Nat.le_refl _)))
      · exact ih _ (Or.inl h2)
    · exact ih _ (Or.inr (containsSub_replaceAll_preserve p hQ hqt hN hnt hQN hNQ
        acc.length acc (Nat.le_refl _) h))

theorem prefix_false_of_name_ne {m nn : List Nat}
    (hm0 : ∀ b ∈ m, b ≠ 0) (hn0 : ∀ b ∈ nn, b ≠ 0) (hne : m ≠ nn) :
    (m ++ [0]).isPrefixOf (nn ++ [0]) = false := by
  cases hp : (m ++ [0]).isPrefixOf (nn ++ [0]) with
  | false => rfl
  | true => exact absurd (zero_term_prefix_eq hm0 hn0 hp) hne

theorem pM_decomp : pM = ([1] ++ ascii "AppName" ++ [0]) ++ (ascii "Microsoft Edge" ++ [0]) := by
  decide

theorem pE_decomp : pE = ([1] ++ ascii "AppName" ++ [0]) ++ (ascii "Edge" ++ [0]) := by
  decide

theorem newNamePat_decomp (nn : List Nat) :
    newNamePat nn = ([1] ++ ascii "AppName" ++ [0]) ++ (nn ++ [0]) := by
  simp [newNamePat, List.append_assoc]

/-- C9: `renameEntry` is idempotent for every store, provided the new name's
bytes avoid the terminator and string-type marker bytes and the new name is
not itself one of the old names. -/
theorem c9_renameEntry_idempotent (c nn : List Nat)
    (hn1 : ∀ b ∈ nn, b ≠ 1) (hn0 : ∀ b ∈ nn, b ≠ 0)
    (hneM : nn ≠ ascii "Microsoft Edge") (hneE : nn ≠ ascii "Edge") :
    renameEntry (renameEntry c nn) nn = renameEntry c nn := by
  have hN : newNamePat nn = 1 :: (ascii "AppName" ++ [0] ++ nn ++ [0]) := rfl
  have hnt : ∀ b ∈ ascii "AppName" ++ [0] ++ nn ++ [0], b ≠ 1 := by
    intro b hb
    rcases List.mem_append.mp hb with h | h
    · rcases List.mem_append.mp h with h2 | h2
      · rcases List.mem_append.mp h2 with h3 | h3
        · exact (by decide : ∀ x ∈ ascii "AppName", x ≠ 1) b h3
        · simp at h3; omega
      · exact hn1 b h2
    · simp at h; omega
  have hMstruct : pM = 1 :: pM.tail := pM_cons
  have hEstruct : pE = 1 :: pE.tail := pE_cons
  have hMtail : ∀ b ∈ pM.tail, b ≠ 1 := by decide
  have hEtail : ∀ b ∈ pE.tail, b ≠ 1 := by decide
  have hQNM : pM.isPrefixOf (newNamePat nn) = false := by
    rw [pM_decomp, newNamePat_decomp, isPrefixOf_append_cancel]
    exact prefix_false_of_name_ne (by decide) hn0 (fun h => hneM h.symm)
  have hNQM : (newNamePat nn).isPrefixOf pM = false := by
    rw [pM_decomp, newNamePat_decomp, isPrefixOf_append_cancel]
    exact prefix_false_of_name_ne hn0 (by decide) hneM
  have hQNE : pE.isPrefixOf (newNamePat nn) = false := by
    rw [pE_decomp, newNamePat_decomp, isPrefixOf_append_cancel]
    exact prefix_false_of_name_ne (by decide) hn0 (fun h => hneE h.symm)
  have hNQE : (newNamePat nn).isPrefixOf pE = false := by
    rw [pE_decomp, newNamePat_decomp, isPrefixOf_append_cancel]
    exact prefix_false_of_name_ne hn0 (by decide) hneE
  have hMfold : containsSub pM (renameEntry c nn) = false := by
    unfold renameEntry
    refine containsSub_fold_false hMstruct hMtail hN hnt
      hQNM hNQM (findGroups c) c ?_
    by_cases hc : containsSub pM c = true
    · exact Or.inl (findGroupsFrom_complete c.length c pM (Nat.le_refl _) (Or.inl rfl) hc)
    · exact Or.inr (Bool.eq_false_iff.mpr (fun h => hc h))
  have hEfold : containsSub pE (renameEntry c nn) = false := by
    unfold renameEntry
    refine containsSub_fold_false hEstruct hEtail hN hnt
      hQNE hNQE (findGroups c) c ?_
    by_cases hc : containsSub pE c = true
    · exact Or.inl (findGroupsFrom_complete c.length c pE (Nat.le_refl _) (Or.inr rfl) hc)
    · exact Or.inr (Bool.eq_false_iff.mpr (fun h => hc h))
  have hempty : findGroups (renameEntry c nn) = [] :=
    findGroupsFrom_nil_of_no_match (renameEntry c nn).length (renameEntry c nn)
      (Nat.le_refl _) hMfold hEfold
  show (findGroups (renameEntry c nn)).foldl
      (fun acc p => replaceAll acc p (newNamePat nn)) (renameEntry c nn) = renameEntry c nn
  rw [hempty]
  rfl

/-- C9 witness: idempotence at a concrete store holding one
`Microsoft Edge` entry, renaming to `Xbox Cloud Gaming (Beta)`. -/
theorem c9_witness :
    renameEntry (renameEntry (pM ++ [7]) (ascii "Xbox Cloud Gaming (Beta)"))
        (ascii "Xbox Cloud Gaming (Beta)") =
      renameEntry (pM ++ [7]) (ascii "Xbox Cloud Gaming (Beta)") :=
  c9_renameEntry_idempotent (pM ++ [7]) (ascii "Xbox Cloud Gaming (Beta)")
    (by decide) (by decide) (by decide) (by decide)

/-! ## Text config patcher (`update_localconfig_vdf`, source lines 440-539) -/

/-- Python `needle in hay` / substring test on text. -/
def containsSubC (needle : List Char) : List Char → Bool
  | [] => needle.isEmpty
  | hay@(_ :: t) => needle.isPrefixOf hay || containsSubC needle t

theorem containsSubC_cons (p : List Char) (x : Char) (t : List Char) :
    containsSubC p (x :: t) = (p.isPrefixOf (x :: t) || containsSubC p t) := rfl

theorem isPrefixOfC_refl_append (l t : List Char) : l.isPrefixOf (l ++ t) = true := by
  induction l with
  | nil => simp
  | cons x xs ih => simp [List.isPrefixOf_cons₂_self, ih]

theorem containsSubC_self_append (t X : List Char) : containsSubC t (t ++ X) = true := by
  cases t with
  | nil =>
    cases X with
    | nil => rfl
    | cons x r => rw [List.nil_append, containsSubC_cons]; simp
  | cons a t' =>
    rw [List.cons_append, containsSubC_cons, Bool.or_eq_true_iff]
    left
    rw [← List.cons_append]
    exact isPrefixOfC_refl_append _ _

/-- The quoted field name `"LaunchOptions"` (source line 488). -/
def loKey : List Char := "\"LaunchOptions\"".toList

/-- `LAUNCH_OPTIONS` (source line 34) as text. -/
def optsChars : List Char :=
  "--window-size=1024,640 --force-device-scale-factor=1.25 --device-scale-factor=1.25 --kiosk \"https://www.xbox.com/play\"".toList

/-- The kiosk guard substring as text. -/
def kioskChars : List Char := "--kiosk \"https://www.xbox.com/play\"".toList

/-- One option of `LAUNCH_OPTIONS`, used to exhibit duplication. -/
def winSizeChars : List Char := "--window-size=1024,640".toList

/-- `\s` of the text regexes: ASCII whitespace. -/
def isWs (c : Char) : Bool :=
  c = ' ' || c = '\t' || c = '\n' || c = '\r' || c = '\x0b' || c = '\x0c'

/-- Match `r'"LaunchOptions"\s*"([^"]*)"'` at the head of `s`
(the pattern of the `re.sub` on source lines 490-494), returning the match
length and the captured group. -/
def matchLaunchAt (s : List Char) : Option (Nat × List Char) :=
  if loKey.isPrefixOf s then
    match (s.drop 15).drop ((s.drop 15).takeWhile isWs).length with
    | q :: r3 =>
      if q = '"' then
        match r3.drop (r3.takeWhile (fun c => c != '"')).length with
        | q2 :: _ =>
          if q2 = '"' then
            some (15 + ((s.drop 15).takeWhile isWs).length + 1 +
              (r3.takeWhile (fun c => c != '"')).length + 1,
              r3.takeWhile (fun c => c != '"'))
          else none
        | [] => none
      else none
    | [] => none
  else none

/-- The replacement text `'"LaunchOptions" "\1 {LAUNCH_OPTIONS}"'`
(source line 492). -/
def replChars (v : List Char) : List Char :=
  "\"LaunchOptions\" \"".toList ++ v ++ (' ' :: optsChars) ++ ['"']

theorem matchLaunchAt_pos {s : List Char} {len : Nat} {v : List Char}
    (h : matchLaunchAt s = some (len, v)) : 1 ≤ len := by
  unfold matchLaunchAt at h
  split at h
  · split at h
    · split at h
      · split at h
        · split at h
          · injection h with h2
            rw [Prod.mk.injEq] at h2
            obtain ⟨hl, _⟩ := h2
            omega
          · cases h
        · cases h
      · cases h
    · cases h
  · cases h

/-- Fuelled worker for the `re.sub` over a section: replace every
non-overlapping match of the LaunchOptions pattern, scanning left to
right. -/
def reSubLaunchGo : Nat → List Char → List Char
  | 0, s => s
  | _ + 1, [] => []
  | fuel + 1, s@(c :: t) =>
    match matchLaunchAt s with
    | some (len, v) => replChars v ++ reSubLaunchGo fuel (s.drop len)
    | none => c :: reSubLaunchGo fuel t

/-- `re.sub(r'"LaunchOptions"\s*"([^"]*)"', ..., section)`. -/
def reSubLaunch (s : List Char) : List Char :=
  reSubLaunchGo s.length s

theorem reSubLaunchGo_succ_cons (f : Nat) (c : Char) (t : List Char) :
    reSubLaunchGo (f + 1) (c :: t) =
      match matchLaunchAt (c :: t) with
      | some (len, v) => replChars v ++ reSubLaunchGo f ((c :: t).drop len)
      | none => c :: reSubLaunchGo f t := rfl

theorem reSubLaunchGo_congr :
    ∀ f₁ f₂ s, s.length ≤ f₁ → s.length ≤ f₂ →
      reSubLaunchGo f₁ s = reSubLaunchGo f₂ s := by
  intro f₁
  induction f₁ with
  | zero =>
    intro f₂ s h1 _
    have : s = [] := List.eq_nil_of_length_eq_zero (Nat.le_zero.mp h1)
    subst this
    cases f₂ <;> rfl
  | succ f ih =>
    intro f₂ s h1 h2
    cases f₂ with
    | zero =>
      have : s = [] := List.eq_nil_of_length_eq_zero (Nat.le_zero.mp h2)
      subst this
      rfl
    | succ f' =>
      cases s with
      | nil => rfl
      | cons c t =>
        simp only [List.length_cons] at h1 h2
        rw [reSubLaunchGo_succ_cons, reSubLaunchGo_succ_cons]
        cases hm : matchLaunchAt (c :: t) with
        | none =>
          exact congrArg (fun l => c :: l) (ih f' t (by omega) (by omega))
        | some lv =>
          obtain ⟨len, v⟩ := lv
          have hlen : 1 ≤ len := matchLaunchAt_pos hm
          exact congrArg (fun l => replChars v ++ l)
            (ih f' ((c :: t).drop len)
              (by simp only [List.length_drop, List.length_cons]; omega)
              (by simp only [List.length_drop, List.length_cons]; omega))

/-- Length-as-fuel entry point for `reSubLaunchGo`. -/
def reSubLaunchFrom (s : List Char) : List Char :=
  reSubLaunchGo s.length s

theorem reSubLaunchFrom_cons (c : Char) (t : List Char) :
    reSubLaunchFrom (c :: t) =
      match matchLaunchAt (c :: t) with
      | some (len, v) => replChars v ++ reSubLaunchFrom ((c :: t).drop len)
      | none => c :: reSubLaunchFrom t := by
  show reSubLaunchGo (t.length + 1) (c :: t) = _
  rw [reSubLaunchGo_succ_cons]
  cases hm : matchLaunchAt (c :: t) with
  | none =>
    exact congrArg (fun l => c :: l)
      (reSubLaunchGo_congr t.length t.length t (Nat.le_refl _) (Nat.le_refl _))
  | some lv =>
    obtain ⟨len, v⟩ := lv
    have hlen : 1 ≤ len := matchLaunchAt_pos hm
    exact congrArg (fun l => replChars v ++ l)
      (reSubLaunchGo_congr t.length ((c :: t).drop len).length ((c :: t).drop len)
        (by simp only [List.length_drop, List.length_cons]; omega) (Nat.le_refl _))

/-- The first-`{` insertion branch:
`section.replace("{", '{\n\t\t"LaunchOptions"\t\t"' + LAUNCH_OPTIONS + '"', 1)`
(source lines 497-499). -/
def braceInsert : List Char :=
  "\x7b\n\t\t\"LaunchOptions\"\t\t\"".toList ++ optsChars ++ ['"']

def replaceFirstBrace : List Char → List Char
  | [] => []
  | c :: t => if c = '{' then braceInsert ++ t else c :: replaceFirstBrace t

/-- `patchLaunchOptions` on an extracted section (source lines 488-499):
rewrite every LaunchOptions field via `re.sub` when the quoted key occurs in
the section, else insert a new field after the first opening brace. -/
def patchTextSection (sec : List Char) : List Char :=
  if containsSubC loKey sec then reSubLaunch sec else replaceFirstBrace sec

/-- Non-overlapping double containment: a second disjoint occurrence exists
after the first one. -/
def afterFirstC (p : List Char) : List Char → Option (List Char)
  | [] => none
  | s@(_ :: t) => if p.isPrefixOf s then some (s.drop p.length) else afterFirstC p t

def containsTwiceC (p s : List Char) : Bool :=
  match afterFirstC p s with
  | some r => containsSubC p r
  | none => false

theorem takeWhileC_all_append {p : Char → Bool} (v : List Char)
    (hv : ∀ c ∈ v, p c = true) (x : Char) (hx : p x = false) (r : List Char) :
    (v ++ x :: r).takeWhile p = v := by
  induction v with
  | nil =>
    rw [List.nil_append]
    exact List.takeWhile_cons_of_neg (by rw [hx]; simp)
  | cons c v' ih =>
    rw [List.cons_append,
      List.takeWhile_cons_of_pos (hv c (List.mem_cons_self c v'))]
    rw [ih (fun d hd => hv d (List.mem_cons_of_mem c hd))]

theorem matchLaunchAt_none_of_no_prefix {s : List Char}
    (h : loKey.isPrefixOf s = false) : matchLaunchAt s = none := by
  unfold matchLaunchAt
  rw [h]
  simp

theorem reSubLaunchFrom_id_of_no_key :
    ∀ (n : Nat) (s : List Char), s.length ≤ n → containsSubC loKey s = false →
      reSubLaunchFrom s = s := by
  intro n
  induction n with
  | zero =>
    intro s hle _
    have : s = [] := List.eq_nil_of_length_eq_zero (Nat.le_zero.mp hle)
    subst this
    rfl
  | succ n ih =>
    intro s hle hkey
    cases s with
    | nil => rfl
    | cons c t =>
      rw [containsSubC_cons] at hkey
      have h1 : loKey.isPrefixOf (c :: t) = false := by
        cases hp : loKey.isPrefixOf (c :: t) with
        | false => rfl
        | true => rw [hp] at hkey; simp at hkey
      have h2 : containsSubC loKey t = false := by
        cases hp : containsSubC loKey t with
        | false => rfl
        | true => rw [hp] at hkey; simp at hkey
      rw [reSubLaunchFrom_cons, matchLaunchAt_none_of_no_prefix h1]
      show c :: reSubLaunchFrom t = c :: t
      rw [ih t (by simp only [List.length_cons] at hle; omega) h2]

theorem matchLaunchAt_structured (v rest : List Char) (hv : ∀ ch ∈ v, ch ≠ '"') :
    matchLaunchAt (loKey ++ (' ' :: '"' :: v) ++ ('"' :: rest)) =
      some (18 + v.length, v) := by
  have hsec : loKey ++ (' ' :: '"' :: v) ++ ('"' :: rest) =
      loKey ++ ((' ' :: '"' :: v) ++ ('"' :: rest)) := by
    simp [List.append_assoc]
  unfold matchLaunchAt
  have hpre : loKey.isPrefixOf (loKey ++ (' ' :: '"' :: v) ++ ('"' :: rest)) = true := by
    rw [hsec]
    exact isPrefixOfC_refl_append _ _
  rw [if_pos hpre]
  have hdrop15 : (loKey ++ (' ' :: '"' :: v) ++ ('"' :: rest)).drop 15 =
      (' ' :: '"' :: v) ++ ('"' :: rest) := by
    rw [hsec]
    exact List.drop_left' (by decide)
  rw [hdrop15]
  have hw : ((' ' :: '"' :: v) ++ ('"' :: rest)).takeWhile isWs = [' '] := by
    rw [List.cons_append, List.cons_append,
      List.takeWhile_cons_of_pos (by decide),
      List.takeWhile_cons_of_neg (by decide)]
  rw [hw]
  have hdrop1 : ((' ' :: '"' :: v) ++ ('"' :: rest)).drop 1 =
      '"' :: (v ++ ('"' :: rest)) := by
    rw [List.cons_append, List.cons_append]
    rfl
  rw [show ([' '] : List Char).length = 1 from rfl, hdrop1]
  dsimp only
  rw [if_pos rfl]
  have hval : (v ++ ('"' :: rest)).takeWhile (fun c => c != '"') = v :=
    takeWhileC_all_append v
      (fun c hc => by rw [bne_iff_ne]; exact hv c hc) '"' (by decide) rest
  rw [hval]
  have hrest : (v ++ ('"' :: rest)).drop v.length = '"' :: rest := List.drop_left _ _
  rw [hrest]
  dsimp only
  rw [if_pos rfl]
  congr 1
  rw [Prod.mk.injEq]
  constructor
  · omega
  · rfl

theorem c8_text_append (v rest : List Char) (hv : ∀ ch ∈ v, ch ≠ '"')
    (hrest : containsSubC loKey rest = false) :
    patchTextSection (loKey ++ (' ' :: '"' :: v) ++ ('"' :: rest)) =
      loKey ++ (' ' :: '"' :: v) ++ (' ' :: optsChars) ++ ('"' :: rest) := by
  have hsec : loKey ++ (' ' :: '"' :: v) ++ ('"' :: rest) =
      loKey ++ ((' ' :: '"' :: v) ++ ('"' :: rest)) := by
    simp [List.append_assoc]
  have hkey : containsSubC loKey (loKey ++ (' ' :: '"' :: v) ++ ('"' :: rest)) = true := by
    rw [hsec]
    exact containsSubC_self_append _ _
  unfold patchTextSection
  rw [if_pos hkey]
  show reSubLaunchFrom (loKey ++ (' ' :: '"' :: v) ++ ('"' :: rest)) = _
  have hc : loKey ++ (' ' :: '"' :: v) ++ ('"' :: rest) =
      '"' :: ((loKey.tail ++ (' ' :: '"' :: v)) ++ ('"' :: rest)) := by
    rw [show loKey = '"' :: loKey.tail from by decide]
    simp [List.cons_append]
  rw [hc, reSubLaunchFrom_cons, ← hc, matchLaunchAt_structured v rest hv]
  have hdrop : (loKey ++ (' ' :: '"' :: v) ++ ('"' :: rest)).drop (18 + v.length) = rest := by
    have hsec2 : loKey ++ (' ' :: '"' :: v) ++ ('"' :: rest) =
        (loKey ++ (' ' :: '"' :: v) ++ ['"']) ++ rest := by
      simp [List.append_assoc]
    rw [hsec2]
    refine List.drop_left' ?_
    simp only [List.length_append, List.length_cons]
    have : loKey.length = 15 := by decide
    simp [this]
    omega
  show replChars v ++
      reSubLaunchFrom ((loKey ++ (' ' :: '"' :: v) ++ ('"' :: rest)).drop (18 + v.length)) = _
  rw [hdrop, reSubLaunchFrom_id_of_no_key rest.length rest (Nat.le_refl _) hrest]
  have hkeyquote : ("\"LaunchOptions\" \"".toList : List Char) = loKey ++ [' ', '"'] := by
    decide
  simp [replChars, hkeyquote, List.append_assoc, loKey]

/-- A section text `"LaunchOptions" "<LAUNCH_OPTIONS>"` whose field value
already contains the full options string. -/
def c8sec : List Char := "\"LaunchOptions\" \"".toList ++ optsChars ++ ['"']

/-- C8 counterexample: the text-config patch applied to a section whose
LaunchOptions value already contains the options string duplicates the
`--window-size=1024,640` option: it occurs once in the input section and
(at least) twice, disjointly, in the patched output. -/
theorem c8_counterexample :
    containsSubC optsChars c8sec = true ∧
      containsTwiceC winSizeChars c8sec = false ∧
      containsTwiceC winSizeChars (patchTextSection c8sec) = true := by
  refine ⟨by decide, by decide, by decide⟩

/-- C8 (amended): the binary-store launch-options append is
additive-idempotent — a value already containing the kiosk guard substring
is left unchanged — but the text-config patch appends unconditionally: on a
section `"LaunchOptions" "<v>"<rest>` it always rewrites the value to
`<v> <LAUNCH_OPTIONS>`, so an already-present option substring is
duplicated. -/
theorem c8_amended_idempotence :
    (∀ (c : List Nat) (pos : Nat) (v : List Nat), launchValueAt c pos = some v →
        containsSub kioskBytes v = true → applyLaunchOptionsAt c pos = c) ∧
      (∀ v rest : List Char, (∀ ch ∈ v, ch ≠ '"') → containsSubC loKey rest = false →
        patchTextSection (loKey ++ (' ' :: '"' :: v) ++ ('"' :: rest)) =
          loKey ++ (' ' :: '"' :: v) ++ (' ' :: optsChars) ++ ('"' :: rest)) := by
  constructor
  · intro c pos v hv hk
    unfold applyLaunchOptionsAt
    rw [hv]
    dsimp only
    rw [if_pos hk]
  · exact c8_text_append

/-- C8 witness: the amended theorem's text branch applied to a concrete
section holding the window-size option as its value. -/
theorem c8_witness :
    patchTextSection (loKey ++ (' ' :: '"' :: winSizeChars) ++ ('"' :: [])) =
      loKey ++ (' ' :: '"' :: winSizeChars) ++ (' ' :: optsChars) ++ ('"' :: []) :=
  c8_amended_idempotence.2 winSizeChars [] (by decide) (by decide)

/-! ## Claim C4: `locateSection` (`update_localconfig_vdf`, source lines 462-482) -/

/-- The quoted decimal-appid key, first alternative of
`rf'"({edge_app_id}|Non-Steam-App_{edge_app_id})"\\s*{{'`. -/
def key1 (appid : Nat) : List Char := ['"'] ++ (toString appid).toList ++ ['"']

/-- The quoted `Non-Steam-App_<appid>` key, second alternative. -/
def key2 (appid : Nat) : List Char :=
  ['"'] ++ "Non-Steam-App_".toList ++ (toString appid).toList ++ ['"']

/-- What follows the quoted key in the compiled pattern.  The pattern
source is a *raw* f-string, so `\\s*` is the regex "escaped backslash, then
zero or more letters `s`" — a literal backslash, NOT whitespace — followed
by a literal `{`. -/
def matchKeyTail : List Char → Option Nat
  | [] => none
  | c :: r =>
    if c = '\\' then
      match r.drop (r.takeWhile (fun ch => ch = 's')).length with
      | b :: _ =>
        if b = '{' then some (1 + (r.takeWhile (fun ch => ch = 's')).length + 1)
        else none
      | [] => none
    else none

/-- Match the whole section-key pattern at the head of `s`, returning the
match length.  The two quoted-key alternatives differ at their second
character (a digit vs `N`), so at most one can match at a position. -/
def matchSectionAt (s : List Char) (appid : Nat) : Option Nat :=
  if (key1 appid).isPrefixOf s then
    (matchKeyTail (s.drop (key1 appid).length)).map (fun tl => (key1 appid).length + tl)
  else if (key2 appid).isPrefixOf s then
    (matchKeyTail (s.drop (key2 appid).length)).map (fun tl => (key2 appid).length + tl)
  else none

/-- The brace-depth scan of source lines 472-482: depth starts at 1, `{`
adds 1, `}` subtracts 1; the returned offset is just past the brace that
brings the depth to 0; `none` when the scan exhausts the document. -/
def braceScan : List Char → Nat → Nat → Option Nat
  | [], _, _ => none
  | c :: t, depth, off =>
    if c = '{' then braceScan t (depth + 1) (off + 1)
    else if c = '}' then
      if depth = 1 then some (off + 1) else braceScan t (depth - 1) (off + 1)
    else braceScan t depth (off + 1)

/-- Leftmost-match scan for the section pattern. -/
def locateSecScan (appid : Nat) : Nat → List Char → Option (Nat × Nat)
  | _, [] => none
  | pos, s@(_ :: t) =>
    match matchSectionAt s appid with
    | some mlen =>
      some (pos,
        match braceScan (s.drop mlen) 1 0 with
        | some e => pos + mlen + e
        | none => pos)
    | none => locateSecScan appid (pos + 1) t

/-- `locateSection`: the section lookup of `update_localconfig_vdf`
(source lines 462-482).  When the brace scan never balances, the source
leaves `section_end` at its initialisation `section_start`, which the model
mirrors. -/
def locateSection (content : List Char) (appid : Nat) : Option (Nat × Nat) :=
  locateSecScan appid 0 content

/-- A document holding the quoted key `"123"` followed by whitespace and an
opening brace — the shape the claim says `locateSection` finds. -/
def docC4 : List Char := "\"123\" \x7b\n\"LaunchOptions\" \"x\"\n\x7d".toList

/-- C4: the compiled pattern is built in a *raw* f-string, so `\\s*`
matches a literal backslash plus letters `s`, never whitespace.  On the
well-formed document `docC4` containing `"123" {` the lookup returns
`none`; it only matches the malformed text `"123"\{`. -/
theorem c4_locateSection_bug :
    containsSubC "\"123\" \x7b".toList docC4 = true ∧
      locateSection docC4 123 = none ∧
      locateSection "\"123\"\\\x7b\x7d".toList 123 = some (0, 8) := by
  refine ⟨by decide, by decide, by decide⟩

/-! ## Claims C2 and C10: `generate_app_id` and `add_shortcut_to_steam` -/

/-- A Python value reaching `generate_app_id`: the function body is written
for `str` arguments, but its only call site (source line 262) passes
`bytes`. -/
inductive PyVal where
  | str (s : String)
  | bytes (b : List Nat)

/-- Python `x.encode("utf-8")`: defined on `str` (for the ASCII literals of
this program UTF-8 coincides with the code points); on `bytes` the
attribute lookup raises `AttributeError` (`bytes` has no `encode`). -/
def pyEncodeUtf8 : PyVal → Except String (List Nat)
  | .str s => .ok (ascii s)
  | .bytes _ => .error "AttributeError: 'bytes' object has no attribute 'encode'"

/-- `generate_app_id` (source lines 114-120).  The body computes
`uniqueName = exe_path.encode("utf-8") + app_name.encode("utf-8")` and then
evaluates `hashlib.crc32(uniqueName) & 0xFFFFFFFF`.  Python's `hashlib`
module has no attribute `crc32` (the CRC-32 function lives in `zlib` and
`binascii`), so after the encode steps the attribute lookup
`hashlib.crc32` raises `AttributeError` unconditionally. -/
def generate_app_id (exe_path app_name : PyVal) : Except String Nat := do
  let _uniqueNameLeft ← pyEncodeUtf8 exe_path
  let _uniqueNameRight ← pyEncodeUtf8 app_name
  .error "AttributeError: module 'hashlib' has no attribute 'crc32'"

/-- C2: `generate_app_id` never returns a CRC-32 value — even on `str`
inputs, every call raises `AttributeError` at the `hashlib.crc32` lookup,
because `hashlib` does not define `crc32`. -/
theorem c2_generate_app_id_raises :
    generate_app_id (.str "/usr/bin/flatpak") (.str "Microsoft Edge") =
      .error "AttributeError: module 'hashlib' has no attribute 'crc32'" := rfl

/-- Filesystem state of `shortcuts.vdf` and its `.bak` sibling. -/
structure BinFS where
  doc : List Nat
  bak : Option (List Nat)

/-- `isDigitB` over bytes: `\d` of the index pattern. -/
def isDigitB (b : Nat) : Bool := 48 ≤ b && b ≤ 57

def natOfDigits (ds : List Nat) : Nat := ds.foldl (fun a d => a * 10 + (d - 48)) 0

/-- Fuelled scan for the non-overlapping matches of
`rb"\x00(\d+)\x00"` (source lines 271-272), yielding the parsed decimal
values. -/
def indexScanGo : Nat → List Nat → List Nat
  | 0, _ => []
  | _ + 1, [] => []
  | fuel + 1, x :: t =>
    if x = 0 then
      match t.takeWhile isDigitB with
      | [] => indexScanGo fuel t
      | ds =>
        match t.drop ds.length with
        | 0 :: rest => natOfDigits ds :: indexScanGo fuel rest
        | _ => indexScanGo fuel t
    else indexScanGo fuel t

/-- `next_index` computation (source line 273): `"0"` when no positional
index matches exist, else one more than the maximum. -/
def allocateNextIndex (c : List Nat) : List Nat :=
  let idxs := indexScanGo c.length c
  if idxs.isEmpty then ascii "0" else ascii (toString (idxs.foldl max 0 + 1))

/-- `add_shortcut_to_steam` (source lines 219-377) as a state transformer:
back up the document; if the `flatpak info` collaborator fails, return
`False`; otherwise call `generate_app_id` with the two `.encode()`d
(`bytes`) arguments — which raises — so the `except` handler restores the
document from the backup and returns `False`.  The `.ok` branch models the
insert path the source would take if the call returned. -/
def add_shortcut_run (fs : BinFS) (flatpakOk : Bool) : BinFS × Bool :=
  let fs1 : BinFS := ⟨fs.doc, some fs.doc⟩
  if flatpakOk = false then (fs1, false)
  else
    match generate_app_id (.bytes (ascii "/usr/bin/flatpak"))
        (.bytes (ascii "Microsoft Edge")) with
    | .error _ => (⟨fs1.bak.getD fs1.doc, fs1.bak⟩, false)
    | .ok app_id =>
      let entry := edgeEntry (allocateNextIndex fs1.doc) app_id
      (⟨insertEntry fs1.doc entry, fs1.bak⟩, true)

/-- C10: `add_shortcut_to_steam` always fails before inserting — the call
`generate_app_id(edge_exe.encode(), edge_name.encode())` raises
`AttributeError` (`bytes` has no `encode`), the handler restores the
backup, and the call returns `False` with the document unchanged, for every
starting state and every collaborator outcome. -/
theorem c10_add_shortcut_always_fails (fs : BinFS) (flatpakOk : Bool) :
    (add_shortcut_run fs flatpakOk).2 = false ∧
      (add_shortcut_run fs flatpakOk).1.doc = fs.doc ∧
      generate_app_id (.bytes (ascii "/usr/bin/flatpak")) (.bytes (ascii "Microsoft Edge")) =
        .error "AttributeError: 'bytes' object has no attribute 'encode'" := by
  cases flatpakOk <;> exact ⟨rfl, rfl, rfl⟩

/-! ## Claim C3: backup-before-mutate / restore-on-failure -/

/-- The pure content transform of `modify_shortcuts_vdf`
(source lines 168-203): for each AppName match of the original content, in
order, replace all occurrences of the matched old-name pattern with the
new-name pattern, then run the launch-options step for the match's original
start offset on the current content. -/
def modifyShortcutsContent (c nn : List Nat) : List Nat :=
  ((appNameMatches c).map (fun m => (m.1, (c.drop m.1).take m.2))).foldl
    (fun acc m => applyLaunchOptionsAt (replaceAll acc m.2 (newNamePat nn)) m.1) c

/-- Failure injection for `modify_shortcuts_vdf`: no failure, an exception
before any write (e.g. at the read), or an exception mid-write after
arbitrary bytes `junk` reached the file. -/
inductive MFail where
  | noFail
  | atRead
  | atWrite
deriving DecidableEq

/-- `modify_shortcuts_vdf` (source lines 156-216) as a state transformer:
copy the document to the `.bak` sibling, transform and write; on any raised
step the handler copies the backup over the document and returns `False`. -/
def modify_shortcuts_run (fs : BinFS) (nn : List Nat) (fp : MFail)
    (junk : List Nat) : BinFS × Bool :=
  let fs1 : BinFS := ⟨fs.doc, some fs.doc⟩
  match fp with
  | .noFail => (⟨modifyShortcutsContent fs1.doc nn, fs1.bak⟩, true)
  | .atRead => (⟨fs1.bak.getD fs1.doc, fs1.bak⟩, false)
  | .atWrite =>
    let fs2 : BinFS := ⟨junk, fs1.bak⟩
    (⟨fs2.bak.getD fs2.doc, fs2.bak⟩, false)

/-- Filesystem state of `localconfig.vdf` and its `.bak` sibling. -/
structure TxtFS where
  doc : List Char
  bak : Option (List Char)

/-- Failure injection for `update_localconfig_vdf`: no failure, or an
exception mid-write after arbitrary text `junk` reached the file. -/
inductive UFail where
  | noFail
  | atWrite
deriving DecidableEq

/-- `update_localconfig_vdf` (source lines 440-539) as a state transformer:
back up; locate the appid section; when absent, fall back to the manual
prompt and return `True` without writing; when present, patch the section
and write; a raised write is restored from the backup by the `except`
handler, which then also falls back to the manual prompt and returns
`True`. -/
def update_localconfig_run (fs : TxtFS) (appid : Nat) (fp : UFail)
    (junk : List Char) : TxtFS × Bool :=
  let fs1 : TxtFS := ⟨fs.doc, some fs.doc⟩
  match locateSection fs1.doc appid with
  | none => (fs1, true)
  | some se =>
    let upd := patchTextSection ((fs1.doc.take se.2).drop se.1)
    let newDoc := fs1.doc.take se.1 ++ upd ++ fs1.doc.drop se.2
    match fp with
    | .noFail => (⟨newDoc, fs1.bak⟩, true)
    | .atWrite =>
      let fs2 : TxtFS := ⟨junk, fs1.bak⟩
      (⟨fs2.bak.getD fs2.doc, fs2.bak⟩, true)

/-- A matching document for the C3 counterexample: the section pattern only
matches with its literal backslash, `"9"\{}`. -/
def docC3 : List Char := "\"9\"\\\x7b\x7d".toList

/-- C3 counterexample: a run of `update_localconfig_vdf` whose write raises
does restore the document, but returns `True` — the operation reports
success, not its failure outcome, after a failed attempt. -/
theorem c3_counterexample :
    (update_localconfig_run ⟨docC3, none⟩ 9 UFail.atWrite ['X']).2 = true ∧
      (update_localconfig_run ⟨docC3, none⟩ 9 UFail.atWrite ['X']).1.doc = docC3 := by
  constructor
  · decide
  · decide

/-- C3 (amended): every document-mutating operation copies the pre-mutation
document into the single backup slot before writing, and a failing run
leaves the document equal to its pre-mutation state; the two shortcuts
operations return `False` on failure, while `update_localconfig_vdf`
returns `True` (degrading to its manual fallback) even when the write
raised. -/
theorem c3_amended_backup_restore :
    (∀ (fs : BinFS) (nn junk : List Nat) (fp : MFail),
        (modify_shortcuts_run fs nn fp junk).1.bak = some fs.doc ∧
          (fp ≠ MFail.noFail →
            (modify_shortcuts_run fs nn fp junk).1.doc = fs.doc ∧
              (modify_shortcuts_run fs nn fp junk).2 = false)) ∧
      (∀ (fs : BinFS) (ok : Bool),
        (add_shortcut_run fs ok).1.bak = some fs.doc ∧
          (add_shortcut_run fs ok).1.doc = fs.doc ∧
          (add_shortcut_run fs ok).2 = false) ∧
      (∀ (fs : TxtFS) (appid : Nat) (junk : List Char),
        (update_localconfig_run fs appid UFail.atWrite junk).1.bak = some fs.doc ∧
          (update_localconfig_run fs appid UFail.atWrite junk).1.doc = fs.doc ∧
          (update_localconfig_run fs appid UFail.atWrite junk).2 = true) := by
  refine ⟨?_, ?_, ?_⟩
  · intro fs nn junk fp
    cases fp with
    | noFail => exact ⟨rfl, fun h => absurd rfl h⟩
    | atRead => exact ⟨rfl, fun _ => ⟨rfl, rfl⟩⟩
    | atWrite => exact ⟨rfl, fun _ => ⟨rfl, rfl⟩⟩
  · intro fs ok
    cases ok <;> exact ⟨rfl, rfl, rfl⟩
  · intro fs appid junk
    cases hls : locateSection fs.doc appid with
    | none => simp [update_localconfig_run, hls]
    | some se => simp [update_localconfig_run, hls]

/-- C3 witness: the amended theorem's shortcuts-store branch at a concrete
state and failing write. -/
theorem c3_witness :
    (modify_shortcuts_run ⟨[5, 6], none⟩ (ascii "X") MFail.atWrite [9]).1.doc = [5, 6] ∧
      (modify_shortcuts_run ⟨[5, 6], none⟩ (ascii "X") MFail.atWrite [9]).2 = false :=
  (c3_amended_backup_restore.1 ⟨[5, 6], none⟩ (ascii "X") [9] MFail.atWrite).2
    (by decide)
